import Mathlib

/-!
# zcimrn/bigint: a shallow embedding of `src/bigint.h`

`std::vector<unsigned int>` is a `List Nat` with index 0 first (least significant limb);
a limb is a natural number below `2 ^ 32`.  Every store into an `unsigned int` is written
with an explicit `% 2 ^ 32`, every `unsigned long long` step with an explicit `% 2 ^ 64`.
The `long long` accumulator of `sub` is an `Int` (its values stay within `[-1, 2 ^ 33)`).
`std::string` is a `List Char`.
-/

namespace BigInt

/-! ## Magnitude helpers (the private static functions of `class BigInt`) -/

/-- Models `std::vector::resize(n)`: truncate, or pad with zero limbs at the high end. -/
def resize (a : List Nat) (n : Nat) : List Nat :=
  a.take n ++ List.replicate (n - a.length) 0

/-- Models `delete_leading_zeros`: walk down from the highest index while the limb is zero, then
resize to what is left. -/
def delete_leading_zeros (a : List Nat) : List Nat :=
  (a.reverse.dropWhile (fun x => x == 0)).reverse

/-- The loop of `less`, limbs given from the highest index downwards. -/
def lessLoop : List Nat → List Nat → Bool
  | x :: xs, y :: ys => if x ≠ y then decide (x < y) else lessLoop xs ys
  | _, _ => false

/-- Models `less(a, b)`: compare sizes, then limbs from the top. -/
def less (a b : List Nat) : Bool :=
  if a.length ≠ b.length then decide (a.length < b.length)
  else lessLoop a.reverse b.reverse

/-- First loop of `add`: indices `0 .. b.size() - 1`; returns the rewritten limbs and the
accumulator `digit`. -/
def addLoop1 : List Nat → List Nat → Nat → List Nat × Nat
  | a0 :: as, b0 :: bs, digit =>
    let d1 := (digit + a0) % 2 ^ 64
    let d2 := (d1 + b0) % 2 ^ 64
    let r := addLoop1 as bs (d2 / 2 ^ 32)
    ((d2 % 2 ^ 32) :: r.1, r.2)
  | _, _, digit => ([], digit)

/-- Second loop of `add`: indices `b.size() .. a.size() - 1`, running while `digit > 0`. -/
def addLoop2 : List Nat → Nat → List Nat × Nat
  | [], digit => ([], digit)
  | a0 :: as, digit =>
    if digit > 0 then
      let d := (digit + a0) % 2 ^ 64
      let r := addLoop2 as (d / 2 ^ 32)
      ((d % 2 ^ 32) :: r.1, r.2)
    else (a0 :: as, digit)

/-- Models `add(a, b)`: the new contents of `a`. -/
def add (a b : List Nat) : List Nat :=
  let a1 := if a.length < b.length then resize a b.length else a
  let l1 := addLoop1 (a1.take b.length) b 0
  let l2 := addLoop2 (a1.drop b.length) l1.2
  if l2.2 > 0 then l1.1 ++ l2.1 ++ [l2.2 % 2 ^ 32] else l1.1 ++ l2.1

/-- The loop of `invert`: `a[i] = ~a[i] + overflow; overflow = a[i] == 0`. -/
def invertLoop : List Nat → Bool → List Nat
  | [], _ => []
  | a0 :: as, overflow =>
    let x := ((2 ^ 32 - 1 - a0 % 2 ^ 32) + (if overflow then 1 else 0)) % 2 ^ 32
    x :: invertLoop as (x == 0)

/-- Models `invert(a)`: the loop started with `overflow = true`. -/
def invert (a : List Nat) : List Nat := invertLoop a true

/-- First loop of `sub`: indices `0 .. b.size() - 1`. -/
def subLoop1 : List Nat → List Nat → Int → List Nat × Int
  | a0 :: as, b0 :: bs, digit =>
    let d := digit + ((2 ^ 32 : Int) + (a0 : Int) - (b0 : Int))
    let r := subLoop1 as bs (d / 2 ^ 32 - 1)
    ((d % 2 ^ 32).toNat :: r.1, r.2)
  | _, _, digit => ([], digit)

/-- Second loop of `sub`: indices `b.size() .. a.size() - 1`, running while `digit == -1`. -/
def subLoop2 : List Nat → Int → List Nat × Int
  | [], digit => ([], digit)
  | a0 :: as, digit =>
    if digit = -1 then
      let d := digit + ((2 ^ 32 : Int) + (a0 : Int))
      let r := subLoop2 as (d / 2 ^ 32 - 1)
      ((d % 2 ^ 32).toNat :: r.1, r.2)
    else (a0 :: as, digit)

/-- Models `sub(a, b)`: the new contents of `a`. -/
def sub (a b : List Nat) : List Nat :=
  let a1 := if a.length < b.length then resize a b.length else a
  let l1 := subLoop1 (a1.take b.length) b 0
  let l2 := subLoop2 (a1.drop b.length) l1.2
  let a2 := l1.1 ++ l2.1
  delete_leading_zeros (if l2.2 = -1 then invert a2 else a2)

/-- The loop of the scalar `mult`. -/
def multLoop : List Nat → Nat → Nat → List Nat × Nat
  | [], _, digit => ([], digit)
  | a0 :: as, k, digit =>
    let d := (digit + (a0 * k) % 2 ^ 64) % 2 ^ 64
    let r := multLoop as k (d / 2 ^ 32)
    ((d % 2 ^ 32) :: r.1, r.2)

/-- Models `mult(a, k)` with `unsigned int k`: the new contents of `a`. -/
def mult_limb (a : List Nat) (k : Nat) : List Nat :=
  let r := multLoop a k 0
  if r.2 > 0 then r.1 ++ [r.2 % 2 ^ 32] else r.1

/-- One round of the loop of the full `mult`, at index `i` with `ai = a[i]`. -/
def multStep (b : List Nat) (r : List Nat) (x : Nat × Nat) : List Nat :=
  add r (mult_limb (List.replicate x.1 0 ++ b) x.2)

/-- Models `mult(a, b)`: schoolbook product. -/
def mult (a b : List Nat) : List Nat :=
  (a.enumFrom 0).foldl (multStep b) []

/-- The binary search of `div` for one quotient limb, as a state `(k, max_k)`.  The loop
`for (...; k < max_k - 1;)` halves `max_k - k`, which starts at `2 ^ 32`; `fuel` bounds the
number of rounds. -/
def searchLoop (p b : List Nat) : Nat → Nat → Nat → Nat × Nat
  | 0, k, max_k => (k, max_k)
  | fuel + 1, k, max_k =>
    if k < max_k - 1 then
      let mid_k := (max_k + k) / 2
      let t := mult_limb b (mid_k % 2 ^ 32)
      if less p t then searchLoop p b fuel k mid_k
      else searchLoop p b fuel (mid_k % 2 ^ 32) max_k
    else (k, max_k)

/-- One round of the outer loop of `div`, on the state `(r, p)` with the limb `a[i]`. -/
def divStep (b : List Nat) (st : List Nat × List Nat) (ai : Nat) : List Nat × List Nat :=
  let p := delete_leading_zeros (ai :: st.2)
  let k := (searchLoop p b 32 0 (2 ^ 32)).1
  (st.1 ++ [k], sub p (mult_limb b k))

/-- The long division of `div` once the window exists: the window starts as the top
`b.size() - 1` limbs of `a`, and for `i = a.size() - b.size()` down to `0` the limb `a[i]`
enters it. -/
def divLoop (a b : List Nat) : List Nat × List Nat :=
  let p := a.drop (a.length + 1 - b.length)
  let st := ((List.range (a.length - b.length + 1)).reverse.map (fun i => a.getD i 0)).foldl
    (divStep b) ([], p)
  (delete_leading_zeros st.1.reverse, st.2)

/-- Models `div(a, b)`: quotient and remainder, or `none` where the source has no defined
behaviour.  Past the early return `a.size() >= b.size()`, and the window is constructed
from the iterator range `(a.end() - b.size() + 1, a.end())`.  That is a range of `a` exactly
when `b.size() >= 1`; with `b` empty it is `(a.end() + 1, a.end())`, and the loop would
read `a[a.size()]`: undefined behaviour, no pair comes back. -/
def div (a b : List Nat) : Option (List Nat × List Nat) :=
  if less a b then some ([], a)
  else if b.length = 0 then none
  else some (divLoop a b)

end BigInt

/-- The class `BigInt`: magnitude limbs and sign flag. -/
structure BigInt where
  value : List Nat
  negative : Bool
deriving DecidableEq, Repr

namespace BigInt

/-- Models `BigInt()`: the default value. -/
def zero : BigInt := ⟨[], false⟩

/-- Models the constructor `BigInt(const std::vector<unsigned int>&, bool)`. -/
def ofLimbs (value : List Nat) (negative : Bool) : BigInt :=
  let v := delete_leading_zeros value
  ⟨v, if v.length = 0 then false else negative⟩

/-- Models `static_cast<unsigned int>(c - '0')`. -/
def digitOfChar (c : Char) : Nat :=
  (((c.toNat : Int) - 48) % 2 ^ 32).toNat

/-- One round of the loop of `BigInt(std::string)`. -/
def parseStep (value : List Nat) (c : Char) : List Nat :=
  let v := mult_limb value 10
  if c ≠ '0' then add v [digitOfChar c] else v

/-- Models the constructor `BigInt(std::string s)`. -/
def parse (s : List Char) : BigInt :=
  if s = [] then zero
  else
    let negative := decide (s.head? = some '-')
    let value := (s.drop (if negative then 1 else 0)).foldl parseStep []
    ⟨value, if value.length = 0 then false else negative⟩

/-- The character appended by one round of the loop of `operator std::string`. -/
def digitChar (rem : List Nat) : Char :=
  Char.ofNat ((48 + (if rem.length > 0 then rem.getD 0 0 else 0)) % 256)

/-- The loop of `operator std::string`: divide by ten until the quotient is empty;
`none` when `fuel` rounds were not enough (or `div` gave no pair, which the divisor
`{10}` excludes). -/
def toStringLoop : Nat → List Nat → List Char → Option (List Char)
  | 0, p, s => if p.length > 0 then none else some s
  | fuel + 1, p, s =>
    if p.length > 0 then
      match div p [10] with
      | some q => toStringLoop fuel q.1 (s ++ [digitChar q.2])
      | none => none
    else some s

/-- Models `operator std::string`.  A limb holds fewer than ten decimal digits, which bounds the
number of rounds of the loop. -/
def toString (x : BigInt) : Option (List Char) :=
  if x.value.length = 0 then some ['0']
  else
    (toStringLoop (10 * x.value.length) x.value []).map
      (fun s => (if x.negative then s ++ ['-'] else s).reverse)

/-- Models `operator<`. -/
def lt (x other : BigInt) : Bool :=
  if x.negative ≠ other.negative then x.negative
  else (!x.negative && less x.value other.value) || (x.negative && less other.value x.value)

/-- Models `operator==`. -/
def eq (x other : BigInt) : Bool := !(lt x other) && !(lt other x)

/-- Models `operator>`. -/
def gt (x other : BigInt) : Bool := lt other x

/-- Models `operator!=`. -/
def ne (x other : BigInt) : Bool := lt x other || lt other x

/-- Models `operator<=`. -/
def le (x other : BigInt) : Bool := lt x other || !(lt other x)

/-- Models `operator>=`. -/
def ge (x other : BigInt) : Bool := lt other x || !(lt x other)

/-- Unary `operator-`. -/
def neg (x : BigInt) : BigInt := ofLimbs x.value (!x.negative)

/-- Models `operator+=` (and `operator+`, which applies it to a copy). -/
def op_add (x other : BigInt) : BigInt :=
  if x.negative = other.negative then ⟨add x.value other.value, x.negative⟩
  else
    ⟨sub x.value other.value, if less x.value other.value then !x.negative else x.negative⟩

/-- Models `operator-=` (and `operator-`). -/
def op_sub (x other : BigInt) : BigInt :=
  if x.negative = other.negative then
    ⟨sub x.value other.value, if less x.value other.value then !x.negative else x.negative⟩
  else ⟨add x.value other.value, x.negative⟩

/-- Models `operator*=` (and `operator*`). -/
def op_mul (x other : BigInt) : BigInt :=
  ⟨mult x.value other.value, x.negative != other.negative⟩

/-- Models `operator/=` (and `operator/`): the sign flag becomes the xor of the flags and
the magnitude the first component of `div`; `none` where `div` has no defined behaviour. -/
def op_div (x other : BigInt) : Option BigInt :=
  (div x.value other.value).map (fun qr => ⟨qr.1, x.negative != other.negative⟩)

/-- Models `operator%=` (and `operator%`): the magnitude becomes the second component of
`div`, the sign flag stays; `none` where `div` has no defined behaviour. -/
def op_mod (x other : BigInt) : Option BigInt :=
  (div x.value other.value).map (fun qr => ⟨qr.2, x.negative⟩)

/-! ## Outcomes

The source declares no error type and contains no `throw`, `assert` or validity check, so
no call ends in a signalled error of its own.  `BigInt(std::string)` consists of
assignments, calls of the helpers above and a return.  `operator/=` and `operator%=` call
`div` unguarded; their outcome is `none` where `div` has no defined behaviour,
`some (Except.ok v)` where they return `v`, and would be `some (Except.error e)` for a
signalled error `e`. -/

/-- The error kinds that section 7 of the specification asks for. -/
inductive Error where
  | DivisionByZero
  | ParseError
deriving DecidableEq, Repr

/-- Outcome of `a / b`. -/
def op_div_outcome (x other : BigInt) : Option (Except Error BigInt) :=
  (op_div x other).map Except.ok

/-- Outcome of `a % b`. -/
def op_mod_outcome (x other : BigInt) : Option (Except Error BigInt) :=
  (op_mod x other).map Except.ok

/-- Outcome of `BigInt(std::string s)`: the constructor inspects no character for validity
and returns. -/
def parse_outcome (s : List Char) : Except Error BigInt :=
  Except.ok (parse s)

/-! ## Denotation -/

/-- Base-`2 ^ 32` little-endian value of a limb sequence. -/
def val : List Nat → Nat
  | [] => 0
  | x :: xs => x + 2 ^ 32 * val xs

/-- All limbs fit in 32 bits. -/
def Limbs (a : List Nat) : Prop := ∀ x ∈ a, x < 2 ^ 32

/-- Canonical magnitude: limbs below `2 ^ 32`, and the top limb, if any, non-zero. -/
def Canonical (a : List Nat) : Prop :=
  Limbs a ∧ a.getLast? ≠ some 0

/-- Well-formed value: canonical magnitude and no negative zero. -/
def WellFormed (x : BigInt) : Prop :=
  Canonical x.value ∧ (x.value = [] → x.negative = false)

instance (a : List Nat) : Decidable (Limbs a) :=
  inferInstanceAs (Decidable (∀ x ∈ a, x < 2 ^ 32))

instance (a : List Nat) : Decidable (Canonical a) :=
  inferInstanceAs (Decidable (Limbs a ∧ a.getLast? ≠ some 0))

instance (x : BigInt) : Decidable (WellFormed x) :=
  inferInstanceAs (Decidable (Canonical x.value ∧ (x.value = [] → x.negative = false)))

/-- The integer denoted by a value. -/
def toInt (x : BigInt) : Int :=
  if x.negative then -(val x.value : Int) else (val x.value : Int)

/-- ASCII decimal digit, `'0'` to `'9'`. -/
def IsDigit (c : Char) : Prop := 48 ≤ c.toNat ∧ c.toNat ≤ 57

instance (c : Char) : Decidable (IsDigit c) :=
  inferInstanceAs (Decidable (48 ≤ c.toNat ∧ c.toNat ≤ 57))

/-- The decimal number written by a run of digits, read left to right. -/
def decimalValue (ds : List Char) : Nat :=
  ds.foldl (fun n c => 10 * n + (c.toNat - 48)) 0

theorem val_append (a b : List Nat) :
    val (a ++ b) = val a + 2 ^ (32 * a.length) * val b := by
  induction a with
  | nil => simp [val]
  | cons x xs ih =>
    have : 2 ^ (32 * (xs.length + 1)) = 2 ^ 32 * 2 ^ (32 * xs.length) := by
      rw [Nat.mul_add, Nat.pow_add, Nat.mul_comm]
    rw [List.cons_append, val, val, ih, List.length_cons, this]; ring

theorem val_replicate_zero (n : Nat) : val (List.replicate n 0) = 0 := by
  induction n with
  | zero => rfl
  | succ n ih => simp [List.replicate_succ, val, ih]

theorem val_lt (a : List Nat) (h : Limbs a) : val a < 2 ^ (32 * a.length) := by
  induction a with
  | nil => simp [val]
  | cons x xs ih =>
    have hx : x < 2 ^ 32 := h x (List.mem_cons_self _ _)
    have hxs := ih (fun y hy => h y (List.mem_cons_of_mem _ hy))
    have : 2 ^ (32 * (xs.length + 1)) = 2 ^ 32 * 2 ^ (32 * xs.length) := by
      rw [Nat.mul_add, Nat.pow_add, Nat.mul_comm]
    simp only [val, List.length_cons, this]
    nlinarith

theorem limbs_append {a b : List Nat} : Limbs (a ++ b) ↔ Limbs a ∧ Limbs b := by
  simp only [Limbs, List.mem_append]
  constructor
  · intro h; exact ⟨fun x hx => h x (Or.inl hx), fun x hx => h x (Or.inr hx)⟩
  · rintro ⟨h1, h2⟩ x (hx | hx)
    · exact h1 x hx
    · exact h2 x hx

theorem limbs_cons {x : Nat} {a : List Nat} : Limbs (x :: a) ↔ x < 2 ^ 32 ∧ Limbs a := by
  simp [Limbs]

theorem limbs_nil : Limbs [] := by simp [Limbs]

theorem limbs_replicate_zero (n : Nat) : Limbs (List.replicate n 0) := by
  intro x hx
  rw [List.mem_replicate] at hx
  rw [hx.2]; positivity

theorem limbs_reverse {a : List Nat} : Limbs a.reverse ↔ Limbs a := by
  simp [Limbs]

/-- Stripping high zero limbs, seen from the low end. -/
theorem delete_leading_zeros_append_zero (a : List Nat) :
    delete_leading_zeros (a ++ [0]) = delete_leading_zeros a := by
  simp [delete_leading_zeros, List.dropWhile]

theorem delete_leading_zeros_append_ne (a : List Nat) (x : Nat) (hx : x ≠ 0) :
    delete_leading_zeros (a ++ [x]) = a ++ [x] := by
  simp [delete_leading_zeros, List.dropWhile, hx]

theorem delete_leading_zeros_spec (a : List Nat) :
    val (delete_leading_zeros a) = val a ∧
    (Limbs a → Limbs (delete_leading_zeros a)) ∧
    (delete_leading_zeros a).getLast? ≠ some 0 ∧
    (delete_leading_zeros a).length ≤ a.length := by
  induction a using List.reverseRecOn with
  | nil => simp [delete_leading_zeros]
  | append_singleton a x ih =>
    by_cases hx : x = 0
    · subst hx
      rw [delete_leading_zeros_append_zero]
      refine ⟨?_, ?_, ih.2.2.1, ?_⟩
      · rw [ih.1, val_append]; simp [val]
      · intro h; exact ih.2.1 (limbs_append.1 h).1
      · simp; have := ih.2.2.2; omega
    · rw [delete_leading_zeros_append_ne a x hx]
      refine ⟨rfl, fun h => h, ?_, le_refl _⟩
      simp [hx]

theorem val_delete_leading_zeros (a : List Nat) : val (delete_leading_zeros a) = val a :=
  (delete_leading_zeros_spec a).1

theorem canonical_delete_leading_zeros (a : List Nat) (h : Limbs a) :
    Canonical (delete_leading_zeros a) :=
  ⟨(delete_leading_zeros_spec a).2.1 h, (delete_leading_zeros_spec a).2.2.1⟩

theorem delete_leading_zeros_of_canonical (a : List Nat) (h : Canonical a) :
    delete_leading_zeros a = a := by
  induction a using List.reverseRecOn with
  | nil => simp [delete_leading_zeros]
  | append_singleton a x _ =>
    have hx : x ≠ 0 := by
      intro h0; apply h.2; simp [h0]
    exact delete_leading_zeros_append_ne a x hx

/-- A canonical non-empty magnitude is at least the weight of its top limb. -/
theorem canonical_val_ge (a : List Nat) (h : Canonical a) (hne : a ≠ []) :
    2 ^ (32 * (a.length - 1)) ≤ val a := by
  induction a using List.reverseRecOn with
  | nil => exact absurd rfl hne
  | append_singleton a x _ =>
    have hx : x ≠ 0 := by
      intro h0; apply h.2; simp [h0]
    rw [val_append]
    simp only [List.length_append, List.length_singleton, Nat.add_sub_cancel, val]
    have : 1 ≤ x := Nat.pos_of_ne_zero hx
    nlinarith [Nat.zero_le (val a), Nat.pos_pow_of_pos (32 * a.length) (by norm_num : 0 < 2)]

/-- Limbs below the base whose value reaches the top weight form a canonical magnitude. -/
theorem canonical_of_val_ge (a : List Nat) (h : Limbs a)
    (hv : a ≠ [] → 2 ^ (32 * (a.length - 1)) ≤ val a) : Canonical a := by
  refine ⟨h, ?_⟩
  induction a using List.reverseRecOn with
  | nil => simp
  | append_singleton a x _ =>
    intro h0
    have hx : x = 0 := by simpa using h0
    subst hx
    have hv2 := hv (by simp)
    rw [val_append] at hv2
    simp only [List.length_append, List.length_singleton, Nat.add_sub_cancel, val] at hv2
    have := val_lt a (limbs_append.1 h).1
    omega

theorem canonical_nil : Canonical [] := ⟨limbs_nil, by simp⟩

theorem val_eq_zero_of_canonical (a : List Nat) (h : Canonical a) (hv : val a = 0) : a = [] := by
  by_contra hne
  have := canonical_val_ge a h hne
  have : 0 < 2 ^ (32 * (a.length - 1)) := Nat.pos_pow_of_pos _ (by norm_num)
  omega

/-- Among canonical magnitudes, a shorter one is smaller. -/
theorem val_lt_of_length_lt (a b : List Nat) (ha : Limbs a) (hb : Canonical b)
    (h : a.length < b.length) : val a < val b := by
  have h1 := val_lt a ha
  have hne : b ≠ [] := by intro h0; simp [h0] at h
  have h2 := canonical_val_ge b hb hne
  have h3 : 2 ^ (32 * a.length) ≤ 2 ^ (32 * (b.length - 1)) :=
    Nat.pow_le_pow_right (by norm_num) (by omega)
  omega

/-- Equal-length limb sequences with equal value are equal. -/
theorem eq_of_val_eq_of_length_eq (a b : List Nat) (ha : Limbs a) (hb : Limbs b)
    (hl : a.length = b.length) (hv : val a = val b) : a = b := by
  induction a generalizing b with
  | nil => cases b with
    | nil => rfl
    | cons y ys => simp at hl
  | cons x xs ih =>
    cases b with
    | nil => simp at hl
    | cons y ys =>
      have hx := (limbs_cons.1 ha).1
      have hy := (limbs_cons.1 hb).1
      simp only [val] at hv
      have e1 : x = y := by omega
      have e2 : val xs = val ys := by omega
      rw [e1, ih ys (limbs_cons.1 ha).2 (limbs_cons.1 hb).2 (by simpa using hl) e2]

/-- The canonical representation of a value is unique. -/
theorem canonical_ext (a b : List Nat) (ha : Canonical a) (hb : Canonical b)
    (hv : val a = val b) : a = b := by
  apply eq_of_val_eq_of_length_eq a b ha.1 hb.1 _ hv
  by_contra hne
  rcases Nat.lt_or_gt_of_ne hne with h | h
  · have := val_lt_of_length_lt a b ha.1 hb h; omega
  · have := val_lt_of_length_lt b a hb.1 ha h; omega

/-! ## The comparator -/

theorem lessLoop_iff (a b : List Nat) (ha : Limbs a) (hb : Limbs b)
    (hl : a.length = b.length) :
    lessLoop a.reverse b.reverse = true ↔ val a < val b := by
  induction a using List.reverseRecOn generalizing b with
  | nil =>
    have : b = [] := by
      cases b with
      | nil => rfl
      | cons y ys => simp at hl
    subst this
    simp [lessLoop, val]
  | append_singleton a x ih =>
    rcases List.eq_nil_or_concat b with hb0 | ⟨b1, y, hb1⟩
    · subst hb0; simp at hl
    · rw [List.concat_eq_append] at hb1
      subst hb1
      have hl1 : a.length = b1.length := by simpa using hl
      have ha1 := (limbs_append.1 ha).1
      have hb2 := (limbs_append.1 hb).1
      have va := val_lt a ha1
      have vb := val_lt b1 hb2
      rw [List.reverse_append, List.reverse_append, List.reverse_singleton,
        List.reverse_singleton, List.singleton_append, List.singleton_append, lessLoop]
      rw [val_append, val_append]
      simp only [val, Nat.mul_zero, Nat.add_zero]
      rw [hl1] at va ⊢
      by_cases hxy : x = y
      · subst hxy
        simp only [ne_eq, not_true_eq_false, if_false]
        rw [ih b1 ha1 hb2 hl1]
        omega
      · simp only [ne_eq, hxy, not_false_eq_true, if_true, decide_eq_true_eq]
        constructor
        · intro h
          have : (x + 1) * 2 ^ (32 * b1.length) ≤ y * 2 ^ (32 * b1.length) :=
            Nat.mul_le_mul_right _ h
          nlinarith
        · intro h
          by_contra hlt
          have hyx : y + 1 ≤ x := by omega
          have : (y + 1) * 2 ^ (32 * b1.length) ≤ x * 2 ^ (32 * b1.length) :=
            Nat.mul_le_mul_right _ hyx
          nlinarith

/-- On canonical magnitudes `less` is the order of the values. -/
theorem less_iff (a b : List Nat) (ha : Canonical a) (hb : Canonical b) :
    less a b = true ↔ val a < val b := by
  unfold less
  by_cases hl : a.length = b.length
  · simp only [ne_eq, hl, not_true_eq_false, if_false]
    exact lessLoop_iff a b ha.1 hb.1 hl
  · simp only [ne_eq, hl, not_false_eq_true, if_true, decide_eq_true_eq]
    rcases Nat.lt_or_gt_of_ne hl with h | h
    · have := val_lt_of_length_lt a b ha.1 hb h
      exact ⟨fun _ => this, fun _ => h⟩
    · have := val_lt_of_length_lt b a hb.1 ha h
      constructor
      · intro h2; omega
      · intro h2; omega

theorem less_self (a : List Nat) : less a a = false := by
  have h : ∀ l : List Nat, lessLoop l l = false := by
    intro l
    induction l with
    | nil => rfl
    | cons x xs ih => simp [lessLoop, ih]
  simp [less, h]

/-! ## Addition -/

theorem pow_split (m n : Nat) : 2 ^ (32 * (m + n)) = 2 ^ (32 * m) * 2 ^ (32 * n) := by
  rw [Nat.mul_add, Nat.pow_add]

theorem pow_succ32 (n : Nat) : 2 ^ (32 * (n + 1)) = 2 ^ 32 * 2 ^ (32 * n) := by
  rw [Nat.mul_add, Nat.pow_add, Nat.mul_comm]

theorem resize_grow (a : List Nat) (n : Nat) (h : a.length ≤ n) :
    resize a n = a ++ List.replicate (n - a.length) 0 := by
  unfold resize
  rw [List.take_of_length_le h]

theorem resize_spec (a : List Nat) (n : Nat) (h : a.length ≤ n) (ha : Limbs a) :
    (resize a n).length = n ∧ Limbs (resize a n) ∧ val (resize a n) = val a := by
  rw [resize_grow a n h]
  refine ⟨by simp; omega, limbs_append.2 ⟨ha, limbs_replicate_zero _⟩, ?_⟩
  rw [val_append, val_replicate_zero]; simp

theorem addLoop1_spec (a b : List Nat) (c : Nat) (hl : a.length = b.length)
    (ha : Limbs a) (hb : Limbs b) (hc : c ≤ 1) :
    (addLoop1 a b c).1.length = a.length ∧ Limbs (addLoop1 a b c).1 ∧
    val (addLoop1 a b c).1 + 2 ^ (32 * a.length) * (addLoop1 a b c).2 = val a + val b + c ∧
    (addLoop1 a b c).2 ≤ 1 := by
  induction a generalizing b c with
  | nil =>
    cases b with
    | nil => simp [addLoop1, val, limbs_nil, hc]
    | cons y ys => simp at hl
  | cons x xs ih =>
    cases b with
    | nil => simp at hl
    | cons y ys =>
      have hx := (limbs_cons.1 ha).1
      have hy := (limbs_cons.1 hb).1
      have e1 : (c + x) % 2 ^ 64 = c + x := Nat.mod_eq_of_lt (by omega)
      have e2 : (c + x + y) % 2 ^ 64 = c + x + y := Nat.mod_eq_of_lt (by omega)
      have hc2 : (c + x + y) / 2 ^ 32 ≤ 1 := by omega
      obtain ⟨h1, h2, h3, h4⟩ := ih ys ((c + x + y) / 2 ^ 32) (by simpa using hl)
        (limbs_cons.1 ha).2 (limbs_cons.1 hb).2 hc2
      simp only [addLoop1, e1, e2]
      refine ⟨by simp only [List.length_cons, h1], limbs_cons.2 ⟨Nat.mod_lt _ (by norm_num), h2⟩,
        ?_, h4⟩
      simp only [val, List.length_cons, pow_succ32]
      have := Nat.div_add_mod (c + x + y) (2 ^ 32)
      nlinarith

theorem addLoop2_spec (a : List Nat) (c : Nat) (ha : Limbs a) (hc : c ≤ 1) :
    (addLoop2 a c).1.length = a.length ∧ Limbs (addLoop2 a c).1 ∧
    val (addLoop2 a c).1 + 2 ^ (32 * a.length) * (addLoop2 a c).2 = val a + c ∧
    (addLoop2 a c).2 ≤ 1 := by
  induction a generalizing c with
  | nil => simp [addLoop2, val, limbs_nil, hc]
  | cons x xs ih =>
    have hx := (limbs_cons.1 ha).1
    by_cases h0 : c > 0
    · have e1 : (c + x) % 2 ^ 64 = c + x := Nat.mod_eq_of_lt (by omega)
      have hc2 : (c + x) / 2 ^ 32 ≤ 1 := by omega
      obtain ⟨h1, h2, h3, h4⟩ := ih ((c + x) / 2 ^ 32) (limbs_cons.1 ha).2 hc2
      simp only [addLoop2, h0, if_true, e1]
      refine ⟨by simp only [List.length_cons, h1], limbs_cons.2 ⟨Nat.mod_lt _ (by norm_num), h2⟩,
        ?_, h4⟩
      simp only [val, List.length_cons, pow_succ32]
      have := Nat.div_add_mod (c + x) (2 ^ 32)
      nlinarith
    · have hc0 : c = 0 := by omega
      subst hc0
      rw [show addLoop2 (x :: xs) 0 = (x :: xs, 0) from by simp [addLoop2]]
      exact ⟨rfl, ha, by simp, by omega⟩

/-- What `add` computes: the sum, with limbs below the base, of length `max` or one more
(then through a carried-out top limb). -/
theorem add_spec (a b : List Nat) (ha : Limbs a) (hb : Limbs b) :
    Limbs (add a b) ∧ val (add a b) = val a + val b ∧
    ((add a b).length = max a.length b.length ∨
      ((add a b).length = max a.length b.length + 1 ∧
        2 ^ (32 * max a.length b.length) ≤ val (add a b))) := by
  obtain ⟨a1, ha1, hlen, hl1, hv1⟩ : ∃ a1, a1 = (if a.length < b.length then resize a b.length
      else a) ∧ a1.length = max a.length b.length ∧ Limbs a1 ∧ val a1 = val a := by
    by_cases h : a.length < b.length
    · have := resize_spec a b.length (by omega) ha
      refine ⟨_, rfl, ?_, ?_, ?_⟩
      · simp only [h, if_true, this.1]; omega
      · simp only [h, if_true]; exact this.2.1
      · simp only [h, if_true]; exact this.2.2
    · refine ⟨_, rfl, ?_, ?_, ?_⟩
      · simp only [h, if_false]; omega
      · simp only [h, if_false]; exact ha
      · simp only [h, if_false]
  have hsplit : a1.take b.length ++ a1.drop b.length = a1 := List.take_append_drop _ _
  have hlo : (a1.take b.length).length = b.length := by
    rw [List.length_take, hlen]; omega
  have hhi : (a1.drop b.length).length = max a.length b.length - b.length := by
    rw [List.length_drop, hlen]
  have hL : Limbs (a1.take b.length) ∧ Limbs (a1.drop b.length) := by
    rw [← hsplit] at hl1; exact limbs_append.1 hl1
  obtain ⟨p1, p2, p3, p4⟩ := addLoop1_spec (a1.take b.length) b 0 hlo hL.1 hb (by omega)
  obtain ⟨q1, q2, q3, q4⟩ := addLoop2_spec (a1.drop b.length)
    (addLoop1 (a1.take b.length) b 0).2 hL.2 p4
  have hva : val a1 = val (a1.take b.length) + 2 ^ (32 * b.length) * val (a1.drop b.length) := by
    conv_lhs => rw [← hsplit]
    rw [val_append, hlo]
  have hpow : 2 ^ (32 * max a.length b.length) =
      2 ^ (32 * b.length) * 2 ^ (32 * (max a.length b.length - b.length)) := by
    rw [← pow_split]; congr 2; omega
  obtain ⟨l1, hl1def⟩ : ∃ l1, l1 = addLoop1 (a1.take b.length) b 0 := ⟨_, rfl⟩
  obtain ⟨l2, hl2def⟩ : ∃ l2, l2 = addLoop2 (a1.drop b.length) l1.2 := ⟨_, rfl⟩
  have hadd : add a b = if l2.2 > 0 then l1.1 ++ l2.1 ++ [l2.2 % 2 ^ 32] else l1.1 ++ l2.1 := by
    rw [hl2def, hl1def, ha1]; rfl
  rw [← hl1def] at p1 p2 p3 p4 q1 q2 q3 q4
  rw [← hl2def] at q1 q2 q3 q4
  rw [hadd]
  have hbase : (l1.1 ++ l2.1).length = max a.length b.length := by
    rw [List.length_append, p1, q1, hlo, hhi]; omega
  have htot : val (l1.1 ++ l2.1) + 2 ^ (32 * max a.length b.length) * l2.2 = val a + val b := by
    rw [val_append, p1, hlo, hpow, ← hv1, hva]
    rw [hlo] at p3
    rw [hhi] at q3
    have h := congrArg (fun t => 2 ^ (32 * b.length) * t) q3
    simp only [Nat.mul_add, ← Nat.mul_assoc] at h
    omega
  by_cases hc : l2.2 > 0
  · have hone : l2.2 = 1 := by omega
    simp only [hc, if_true]
    rw [hone]
    have hv : val (l1.1 ++ l2.1 ++ [1 % 2 ^ 32]) = val a + val b := by
      rw [val_append, hbase, ← htot, hone]; simp [val]
    refine ⟨limbs_append.2 ⟨limbs_append.2 ⟨p2, q2⟩, ?_⟩, hv, Or.inr ⟨?_, ?_⟩⟩
    · intro x hx; simp at hx; subst hx; norm_num
    · rw [List.length_append, hbase]; rfl
    · rw [hv, ← htot, hone]; omega
  · have hz : l2.2 = 0 := by omega
    simp only [hc, if_false]
    rw [hz] at htot
    exact ⟨limbs_append.2 ⟨p2, q2⟩, by omega, Or.inl hbase⟩

theorem val_add (a b : List Nat) (ha : Limbs a) (hb : Limbs b) :
    val (add a b) = val a + val b := (add_spec a b ha hb).2.1

theorem limbs_add (a b : List Nat) (ha : Limbs a) (hb : Limbs b) : Limbs (add a b) :=
  (add_spec a b ha hb).1

/-- The sum is canonical as soon as one operand is canonical and at least as long as the
other. -/
theorem canonical_add_of_le (a b : List Nat) (ha : Limbs a) (hb : Canonical b)
    (hl : a.length ≤ b.length) : Canonical (add a b) := by
  obtain ⟨h1, h2, h3⟩ := add_spec a b ha hb.1
  apply canonical_of_val_ge _ h1
  intro hne
  have hm : max a.length b.length = b.length := by omega
  rw [hm] at h3
  rcases h3 with h | ⟨h, h'⟩
  · rw [h, h2]
    have hbne : b ≠ [] := by
      intro h0; subst h0
      simp at h
      exact hne h
    have := canonical_val_ge b hb hbne
    omega
  · rw [h]; simpa using h'

theorem canonical_add (a b : List Nat) (ha : Canonical a) (hb : Canonical b) :
    Canonical (add a b) := by
  by_cases hl : a.length ≤ b.length
  · exact canonical_add_of_le a b ha.1 hb hl
  · obtain ⟨h1, h2, h3⟩ := add_spec a b ha.1 hb.1
    apply canonical_of_val_ge _ h1
    intro _
    have hm : max a.length b.length = a.length := by omega
    rw [hm] at h3
    rcases h3 with h | ⟨h, h'⟩
    · rw [h, h2]
      have hane : a ≠ [] := by
        intro h0; subst h0; simp at hl
      have := canonical_val_ge a ha hane
      omega
    · rw [h]; simpa using h'

/-! ## Multiplication -/

theorem multLoop_spec (a : List Nat) (k c : Nat) (ha : Limbs a) (hk : k < 2 ^ 32)
    (hc : c < 2 ^ 32) :
    (multLoop a k c).1.length = a.length ∧ Limbs (multLoop a k c).1 ∧
    val (multLoop a k c).1 + 2 ^ (32 * a.length) * (multLoop a k c).2 = val a * k + c ∧
    (multLoop a k c).2 < 2 ^ 32 := by
  induction a generalizing c with
  | nil =>
    refine ⟨rfl, limbs_nil, ?_, hc⟩
    simp [multLoop, val]
  | cons x xs ih =>
    have hx := (limbs_cons.1 ha).1
    have hxk : x * k ≤ (2 ^ 32 - 1) * (2 ^ 32 - 1) :=
      Nat.mul_le_mul (by omega) (by omega)
    have e1 : (x * k) % 2 ^ 64 = x * k := Nat.mod_eq_of_lt (by omega)
    have e2 : (c + x * k) % 2 ^ 64 = c + x * k := Nat.mod_eq_of_lt (by omega)
    have hc2 : (c + x * k) / 2 ^ 32 < 2 ^ 32 := by omega
    obtain ⟨h1, h2, h3, h4⟩ := ih ((c + x * k) / 2 ^ 32) (limbs_cons.1 ha).2 hc2
    simp only [multLoop, e1, e2]
    refine ⟨by simp only [List.length_cons, h1], limbs_cons.2 ⟨Nat.mod_lt _ (by norm_num), h2⟩,
      ?_, h4⟩
    simp only [val, List.length_cons, pow_succ32]
    have := Nat.div_add_mod (c + x * k) (2 ^ 32)
    nlinarith

/-- What the scalar `mult` computes. -/
theorem mult_limb_spec (a : List Nat) (k : Nat) (ha : Limbs a) (hk : k < 2 ^ 32) :
    Limbs (mult_limb a k) ∧ val (mult_limb a k) = val a * k ∧
    ((mult_limb a k).length = a.length ∨
      ((mult_limb a k).length = a.length + 1 ∧ 2 ^ (32 * a.length) ≤ val (mult_limb a k))) := by
  obtain ⟨h1, h2, h3, h4⟩ := multLoop_spec a k 0 ha hk (by norm_num)
  obtain ⟨r, hr⟩ : ∃ r, r = multLoop a k 0 := ⟨_, rfl⟩
  have hm : mult_limb a k = if r.2 > 0 then r.1 ++ [r.2 % 2 ^ 32] else r.1 := by
    rw [hr]; rfl
  rw [← hr] at h1 h2 h3 h4
  rw [hm]
  by_cases hc : r.2 > 0
  · simp only [hc, if_true]
    have e : r.2 % 2 ^ 32 = r.2 := Nat.mod_eq_of_lt h4
    rw [e]
    have hv : val (r.1 ++ [r.2]) = val a * k := by
      rw [val_append, h1]; simp only [val, Nat.mul_zero, Nat.add_zero]; omega
    refine ⟨limbs_append.2 ⟨h2, ?_⟩, hv, Or.inr ⟨by simp [h1], ?_⟩⟩
    · intro x hx; simp at hx; subst hx; exact h4
    · rw [hv]
      have : 2 ^ (32 * a.length) * 1 ≤ 2 ^ (32 * a.length) * r.2 :=
        Nat.mul_le_mul_left _ hc
      omega
  · have hz : r.2 = 0 := by omega
    simp only [hc, if_false]
    rw [hz] at h3
    exact ⟨h2, by omega, Or.inl h1⟩

theorem val_mult_limb (a : List Nat) (k : Nat) (ha : Limbs a) (hk : k < 2 ^ 32) :
    val (mult_limb a k) = val a * k := (mult_limb_spec a k ha hk).2.1

theorem limbs_mult_limb (a : List Nat) (k : Nat) (ha : Limbs a) (hk : k < 2 ^ 32) :
    Limbs (mult_limb a k) := (mult_limb_spec a k ha hk).1

/-- Scaling a canonical magnitude by a non-zero limb keeps it canonical. -/
theorem canonical_mult_limb (a : List Nat) (k : Nat) (ha : Canonical a) (hk : k < 2 ^ 32)
    (hk0 : k ≠ 0) : Canonical (mult_limb a k) := by
  obtain ⟨h1, h2, h3⟩ := mult_limb_spec a k ha.1 hk
  apply canonical_of_val_ge _ h1
  intro hne
  rcases h3 with h | ⟨h, h'⟩
  · rw [h, h2]
    have hane : a ≠ [] := by
      intro h0; subst h0; simp at h; exact hne h
    have := canonical_val_ge a ha hane
    have : val a * 1 ≤ val a * k := Nat.mul_le_mul_left _ (Nat.pos_of_ne_zero hk0)
    omega
  · rw [h]; simpa using h'

theorem mult_limb_nil (k : Nat) : mult_limb [] k = [] := by
  simp [mult_limb, multLoop]

/-- Invariant of the schoolbook loop, started at index `n` with accumulator `r`. -/
theorem mult_fold_spec (b : List Nat) (hb : Limbs b) (a : List Nat) :
    ∀ (n : Nat) (r : List Nat) (A : Nat), Limbs a → Limbs r → r.length ≤ n + b.length →
      A < 2 ^ (32 * n) → val r = A * val b →
      Limbs ((a.enumFrom n).foldl (multStep b) r) ∧
      ((a.enumFrom n).foldl (multStep b) r).length ≤ n + a.length + b.length ∧
      val ((a.enumFrom n).foldl (multStep b) r) = (A + 2 ^ (32 * n) * val a) * val b := by
  induction a with
  | nil =>
    intro n r A _ hr hlen _ hv
    simp only [List.enumFrom_nil, List.foldl_nil, List.length_nil, val]
    exact ⟨hr, by omega, by rw [hv]; simp⟩
  | cons x xs ih =>
    intro n r A ha hr hlen hA hv
    have hx := (limbs_cons.1 ha).1
    have hz : Limbs (List.replicate n 0 ++ b) := limbs_append.2 ⟨limbs_replicate_zero n, hb⟩
    obtain ⟨t1, t2, t3⟩ := mult_limb_spec (List.replicate n 0 ++ b) x hz hx
    have hvz : val (List.replicate n 0 ++ b) = 2 ^ (32 * n) * val b := by
      rw [val_append, val_replicate_zero]; simp
    have hlz : (List.replicate n 0 ++ b).length = n + b.length := by simp
    rw [hvz] at t2
    rw [hlz] at t3
    obtain ⟨s1, s2, s3⟩ := add_spec r _ hr t1
    have hstep : multStep b r (n, x) = add r (mult_limb (List.replicate n 0 ++ b) x) := rfl
    have hvb := val_lt b hb
    have hA1 : A + 2 ^ (32 * n) * x < 2 ^ (32 * (n + 1)) := by
      rw [pow_succ32]
      have : 2 ^ (32 * n) * (x + 1) ≤ 2 ^ (32 * n) * 2 ^ 32 := Nat.mul_le_mul_left _ hx
      rw [Nat.mul_add] at this
      rw [Nat.mul_comm (2 ^ 32)]
      omega
    have hv1 : val (multStep b r (n, x)) = (A + 2 ^ (32 * n) * x) * val b := by
      rw [hstep, s2, hv, t2]; ring
    have hlen1 : (multStep b r (n, x)).length ≤ n + 1 + b.length := by
      rw [hstep]
      by_contra hbig
      have hlt : val (multStep b r (n, x)) < 2 ^ (32 * (n + 1 + b.length)) := by
        rw [hv1, pow_split]
        have h2 : 0 < 2 ^ (32 * (n + 1)) := Nat.pos_pow_of_pos _ (by norm_num)
        calc (A + 2 ^ (32 * n) * x) * val b
            ≤ 2 ^ (32 * (n + 1)) * val b := Nat.mul_le_mul_right _ (Nat.le_of_lt hA1)
          _ < 2 ^ (32 * (n + 1)) * 2 ^ (32 * b.length) := Nat.mul_lt_mul_of_pos_left hvb h2
      rw [hstep] at hlt
      rcases s3 with h | ⟨h, h'⟩
      · rcases t3 with g | ⟨g, _⟩
        · rw [g] at h; omega
        · rw [g] at h; omega
      · rcases t3 with g | ⟨g, _⟩
        · rw [g] at h; omega
        · rw [g] at h h'
          have hmx : max r.length (n + b.length + 1) = n + 1 + b.length := by omega
          rw [hmx] at h'
          omega
    have := ih (n + 1) (multStep b r (n, x)) (A + 2 ^ (32 * n) * x) (limbs_cons.1 ha).2
      (by rw [hstep]; exact s1) hlen1 hA1 hv1
    simp only [List.enumFrom_cons, List.foldl_cons, List.length_cons, val]
    refine ⟨this.1, by have := this.2.1; omega, ?_⟩
    rw [this.2.2, pow_succ32]; ring

/-- The schoolbook product denotes the product of the values. -/
theorem mult_spec (a b : List Nat) (ha : Limbs a) (hb : Limbs b) :
    Limbs (mult a b) ∧ (mult a b).length ≤ a.length + b.length ∧
    val (mult a b) = val a * val b := by
  have := mult_fold_spec b hb a 0 [] 0 ha limbs_nil (by simp) (by norm_num) (by simp [val])
  unfold mult
  refine ⟨this.1, by have := this.2.1; omega, ?_⟩
  rw [this.2.2]; simp

theorem val_mult (a b : List Nat) (ha : Limbs a) (hb : Limbs b) :
    val (mult a b) = val a * val b := (mult_spec a b ha hb).2.2

theorem mult_nil_left (b : List Nat) : mult [] b = [] := rfl

/-- The product of canonical magnitudes is canonical when the right factor is not empty. -/
theorem canonical_mult (a b : List Nat) (ha : Canonical a) (hb : Canonical b) (hne : b ≠ []) :
    Canonical (mult a b) := by
  rcases List.eq_nil_or_concat a with h0 | ⟨a1, x, h1⟩
  · subst h0; exact canonical_nil
  · rw [List.concat_eq_append] at h1
    subst h1
    have hx0 : x ≠ 0 := by
      intro h0; apply ha.2; simp [h0]
    have hLa := limbs_append.1 ha.1
    have hx : x < 2 ^ 32 := hLa.2 x (by simp)
    have hm : mult (a1 ++ [x]) b =
        add (mult a1 b) (mult_limb (List.replicate a1.length 0 ++ b) x) := by
      unfold mult
      rw [List.enumFrom_append, List.foldl_append]
      simp [multStep]
    rw [hm]
    obtain ⟨m1, m2, _⟩ := mult_spec a1 b hLa.1 hb.1
    have hz : Limbs (List.replicate a1.length 0 ++ b) :=
      limbs_append.2 ⟨limbs_replicate_zero _, hb.1⟩
    have hcz : Canonical (List.replicate a1.length 0 ++ b) := by
      refine ⟨hz, ?_⟩
      rw [List.getLast?_append_of_ne_nil _ hne]
      exact hb.2
    have ct := canonical_mult_limb _ x hcz hx hx0
    apply canonical_add_of_le _ _ m1 ct
    obtain ⟨_, _, t3⟩ := mult_limb_spec (List.replicate a1.length 0 ++ b) x hz hx
    have hlz : (List.replicate a1.length 0 ++ b).length = a1.length + b.length := by simp
    rw [hlz] at t3
    rcases t3 with g | ⟨g, _⟩ <;> omega

/-! ## Subtraction without a final borrow -/

theorem pow_succ32_int (n : Nat) : (2 : Int) ^ (32 * (n + 1)) = 2 ^ 32 * 2 ^ (32 * n) := by
  rw [Nat.mul_add, pow_add, mul_comm]

theorem subLoop1_spec (a b : List Nat) (c : Int) (hl : a.length = b.length)
    (ha : Limbs a) (hb : Limbs b) (hc : c = 0 ∨ c = -1) :
    (subLoop1 a b c).1.length = a.length ∧ Limbs (subLoop1 a b c).1 ∧
    (val (subLoop1 a b c).1 : Int) + 2 ^ (32 * a.length) * (subLoop1 a b c).2
      = (val a : Int) - (val b : Int) + c ∧
    ((subLoop1 a b c).2 = 0 ∨ (subLoop1 a b c).2 = -1) := by
  induction a generalizing b c with
  | nil =>
    cases b with
    | nil => simp [subLoop1, val, limbs_nil, hc]
    | cons y ys => simp at hl
  | cons x xs ih =>
    cases b with
    | nil => simp at hl
    | cons y ys =>
      have hx := (limbs_cons.1 ha).1
      have hy := (limbs_cons.1 hb).1
      obtain ⟨d, hd⟩ : ∃ d : Int, d = c + ((2 ^ 32 : Int) + (x : Int) - (y : Int)) := ⟨_, rfl⟩
      have hd0 : 0 ≤ d := by rcases hc with h | h <;> omega
      have hd1 : d < 2 ^ 33 := by rcases hc with h | h <;> omega
      have hc2 : d / 2 ^ 32 - 1 = 0 ∨ d / 2 ^ 32 - 1 = -1 := by omega
      have hm0 : 0 ≤ d % 2 ^ 32 := Int.emod_nonneg _ (by norm_num)
      have hm1 : d % 2 ^ 32 < 2 ^ 32 := Int.emod_lt_of_pos _ (by norm_num)
      have hlimb : (((d % 2 ^ 32).toNat : Nat) : Int) = d % 2 ^ 32 := Int.toNat_of_nonneg hm0
      have hlt : (d % 2 ^ 32).toNat < 2 ^ 32 := by omega
      obtain ⟨h1, h2, h3, h4⟩ := ih ys (d / 2 ^ 32 - 1) (by simpa using hl)
        (limbs_cons.1 ha).2 (limbs_cons.1 hb).2 hc2
      have hs : subLoop1 (x :: xs) (y :: ys) c =
          ((d % 2 ^ 32).toNat :: (subLoop1 xs ys (d / 2 ^ 32 - 1)).1,
            (subLoop1 xs ys (d / 2 ^ 32 - 1)).2) := by
        rw [hd]; rfl
      have hdm := Int.ediv_add_emod d (2 ^ 32)
      rw [hs]
      generalize subLoop1 xs ys (d / 2 ^ 32 - 1) = R at h1 h2 h3 h4
      generalize (d % 2 ^ 32).toNat = m at hlimb hlt
      refine ⟨by simp only [List.length_cons, h1], limbs_cons.2 ⟨hlt, h2⟩, ?_, h4⟩
      simp only [val, List.length_cons, pow_succ32_int]
      push_cast
      linear_combination hlimb + (2 ^ 32 : Int) * h3 + hdm + hd

theorem subLoop2_spec (a : List Nat) (c : Int) (ha : Limbs a) (hc : c = 0 ∨ c = -1) :
    (subLoop2 a c).1.length = a.length ∧ Limbs (subLoop2 a c).1 ∧
    (val (subLoop2 a c).1 : Int) + 2 ^ (32 * a.length) * (subLoop2 a c).2 = (val a : Int) + c ∧
    ((subLoop2 a c).2 = 0 ∨ (subLoop2 a c).2 = -1) := by
  induction a generalizing c with
  | nil => simp [subLoop2, val, limbs_nil, hc]
  | cons x xs ih =>
    have hx := (limbs_cons.1 ha).1
    by_cases h0 : c = -1
    · obtain ⟨d, hd⟩ : ∃ d : Int, d = c + ((2 ^ 32 : Int) + (x : Int)) := ⟨_, rfl⟩
      have hd0 : 0 ≤ d := by omega
      have hd1 : d < 2 ^ 33 := by omega
      have hc2 : d / 2 ^ 32 - 1 = 0 ∨ d / 2 ^ 32 - 1 = -1 := by omega
      have hm0 : 0 ≤ d % 2 ^ 32 := Int.emod_nonneg _ (by norm_num)
      have hm1 : d % 2 ^ 32 < 2 ^ 32 := Int.emod_lt_of_pos _ (by norm_num)
      have hlimb : (((d % 2 ^ 32).toNat : Nat) : Int) = d % 2 ^ 32 := Int.toNat_of_nonneg hm0
      have hlt : (d % 2 ^ 32).toNat < 2 ^ 32 := by omega
      obtain ⟨h1, h2, h3, h4⟩ := ih (d / 2 ^ 32 - 1) (limbs_cons.1 ha).2 hc2
      have hs : subLoop2 (x :: xs) c =
          ((d % 2 ^ 32).toNat :: (subLoop2 xs (d / 2 ^ 32 - 1)).1,
            (subLoop2 xs (d / 2 ^ 32 - 1)).2) := by
        rw [hd]; simp only [subLoop2, h0, if_true]
      have hdm := Int.ediv_add_emod d (2 ^ 32)
      rw [hs]
      generalize subLoop2 xs (d / 2 ^ 32 - 1) = R at h1 h2 h3 h4
      generalize (d % 2 ^ 32).toNat = m at hlimb hlt
      refine ⟨by simp only [List.length_cons, h1], limbs_cons.2 ⟨hlt, h2⟩, ?_, h4⟩
      simp only [val, List.length_cons, pow_succ32_int]
      push_cast
      linear_combination hlimb + (2 ^ 32 : Int) * h3 + hdm + hd
    · have hc0 : c = 0 := by omega
      subst hc0
      rw [show subLoop2 (x :: xs) 0 = (x :: xs, 0) from by simp [subLoop2]]
      exact ⟨rfl, ha, by simp, Or.inl rfl⟩

/-- The state of `sub` after its two loops: the limbs `a2` and the final borrow marker
`d`, with `val a2 + 2 ^ (32 * N) * d = val a - val b`. -/
theorem sub_loops_spec (a b : List Nat) (ha : Limbs a) (hb : Limbs b) :
    ∃ (a2 : List Nat) (d : Int),
      sub a b = delete_leading_zeros (if d = -1 then invert a2 else a2) ∧
      a2.length = max a.length b.length ∧ Limbs a2 ∧ (d = 0 ∨ d = -1) ∧
      (val a2 : Int) + 2 ^ (32 * max a.length b.length) * d = (val a : Int) - (val b : Int) := by
  obtain ⟨a1, ha1, hlen, hl1, hv1⟩ : ∃ a1, a1 = (if a.length < b.length then resize a b.length
      else a) ∧ a1.length = max a.length b.length ∧ Limbs a1 ∧ val a1 = val a := by
    by_cases h : a.length < b.length
    · have := resize_spec a b.length (by omega) ha
      refine ⟨_, rfl, ?_, ?_, ?_⟩
      · simp only [h, if_true, this.1]; omega
      · simp only [h, if_true]; exact this.2.1
      · simp only [h, if_true]; exact this.2.2
    · refine ⟨_, rfl, ?_, ?_, ?_⟩
      · simp only [h, if_false]; omega
      · simp only [h, if_false]; exact ha
      · simp only [h, if_false]
  have hsplit : a1.take b.length ++ a1.drop b.length = a1 := List.take_append_drop _ _
  have hlo : (a1.take b.length).length = b.length := by
    rw [List.length_take, hlen]; omega
  have hhi : (a1.drop b.length).length = max a.length b.length - b.length := by
    rw [List.length_drop, hlen]
  have hL : Limbs (a1.take b.length) ∧ Limbs (a1.drop b.length) := by
    rw [← hsplit] at hl1; exact limbs_append.1 hl1
  obtain ⟨p1, p2, p3, p4⟩ := subLoop1_spec (a1.take b.length) b 0 hlo hL.1 hb (Or.inl rfl)
  obtain ⟨q1, q2, q3, q4⟩ := subLoop2_spec (a1.drop b.length)
    (subLoop1 (a1.take b.length) b 0).2 hL.2 p4
  have hva : val a1 = val (a1.take b.length) + 2 ^ (32 * b.length) * val (a1.drop b.length) := by
    conv_lhs => rw [← hsplit]
    rw [val_append, hlo]
  have hpow : (2 : Int) ^ (32 * max a.length b.length) =
      2 ^ (32 * b.length) * 2 ^ (32 * (max a.length b.length - b.length)) := by
    rw [← pow_add, ← Nat.mul_add]; congr 2; omega
  obtain ⟨l1, hl1def⟩ : ∃ l1, l1 = subLoop1 (a1.take b.length) b 0 := ⟨_, rfl⟩
  obtain ⟨l2, hl2def⟩ : ∃ l2, l2 = subLoop2 (a1.drop b.length) l1.2 := ⟨_, rfl⟩
  rw [← hl1def] at p1 p2 p3 p4 q1 q2 q3 q4
  rw [← hl2def] at q1 q2 q3 q4
  refine ⟨l1.1 ++ l2.1, l2.2, ?_, ?_, limbs_append.2 ⟨p2, q2⟩, q4, ?_⟩
  · rw [hl2def, hl1def, ha1]; rfl
  · rw [List.length_append, p1, q1, hlo, hhi]; omega
  · rw [val_append, p1, hlo, hpow, ← hv1, hva]
    rw [hlo] at p3
    rw [hhi] at q3
    push_cast
    linear_combination p3 + (2 : Int) ^ (32 * b.length) * q3

/-- When the subtrahend is not larger, `sub` returns the canonical difference. -/
theorem sub_spec_of_le (a b : List Nat) (ha : Limbs a) (hb : Limbs b) (hle : val b ≤ val a) :
    Canonical (sub a b) ∧ val (sub a b) = val a - val b := by
  obtain ⟨a2, d, hs, hlen, hl2, hd, hv⟩ := sub_loops_spec a b ha hb
  have hlt : (val a2 : Int) < 2 ^ (32 * max a.length b.length) := by
    have := val_lt a2 hl2
    rw [hlen] at this
    exact_mod_cast this
  have hle2 : (val b : Int) ≤ (val a : Int) := by exact_mod_cast hle
  have hd0 : d = 0 := by
    rcases hd with h | h
    · exact h
    · rw [h] at hv; omega
  subst hd0
  rw [hs]
  simp only [show ¬ ((0 : Int) = -1) by decide, if_false]
  refine ⟨canonical_delete_leading_zeros a2 hl2, ?_⟩
  rw [val_delete_leading_zeros]
  omega

/-! ## Long division -/

theorem val_pos_of_canonical (b : List Nat) (hb : Canonical b) (hne : b ≠ []) : 0 < val b := by
  have := canonical_val_ge b hb hne
  have : 0 < 2 ^ (32 * (b.length - 1)) := Nat.pos_pow_of_pos _ (by norm_num)
  omega

/-- The binary search keeps `k * b ≤ p < max_k * b`, and with `max_k - k ≤ 2 ^ fuel` it
leaves through the loop condition, at the quotient limb. -/
theorem searchLoop_spec (p b : List Nat) (hp : Canonical p) (hb : Canonical b) :
    ∀ (fuel k max_k : Nat), k < max_k → max_k ≤ 2 ^ 32 → max_k - k ≤ 2 ^ fuel →
      k * val b ≤ val p → val p < max_k * val b →
      (searchLoop p b fuel k max_k).1 * val b ≤ val p ∧
      val p < ((searchLoop p b fuel k max_k).1 + 1) * val b ∧
      (searchLoop p b fuel k max_k).1 < 2 ^ 32 ∧
      ¬ ((searchLoop p b fuel k max_k).1 < (searchLoop p b fuel k max_k).2 - 1) := by
  intro fuel
  induction fuel with
  | zero =>
    intro k max_k h1 h2 h3 h4 h5
    have hm : max_k = k + 1 := by simp at h3; omega
    subst hm
    simp only [searchLoop]
    exact ⟨h4, h5, by omega, by omega⟩
  | succ fuel ih =>
    intro k max_k h1 h2 h3 h4 h5
    rw [Nat.pow_succ] at h3
    by_cases hc : k < max_k - 1
    · have hmid1 : k < (max_k + k) / 2 := by omega
      have hmid2 : (max_k + k) / 2 < max_k := by omega
      have hmod : (max_k + k) / 2 % 2 ^ 32 = (max_k + k) / 2 := Nat.mod_eq_of_lt (by omega)
      have hct := canonical_mult_limb b ((max_k + k) / 2) hb (by omega) (by omega)
      have hvt := val_mult_limb b ((max_k + k) / 2) hb.1 (by omega)
      have hless := less_iff p (mult_limb b ((max_k + k) / 2)) hp hct
      rw [hvt, Nat.mul_comm] at hless
      by_cases hl : less p (mult_limb b ((max_k + k) / 2)) = true
      · have hs : searchLoop p b (fuel + 1) k max_k = searchLoop p b fuel k ((max_k + k) / 2) := by
          simp only [searchLoop, hc, if_true, hmod, hl]
        rw [hs]
        exact ih k _ hmid1 (by omega) (by omega) h4 (hless.1 hl)
      · have hs : searchLoop p b (fuel + 1) k max_k =
            searchLoop p b fuel ((max_k + k) / 2) max_k := by
          simp only [searchLoop, hc, if_true, hmod, hl]
          rfl
        rw [hs]
        have hge : (max_k + k) / 2 * val b ≤ val p := by
          by_contra hcon
          exact hl (hless.2 (by omega))
        exact ih _ max_k hmid2 h2 (by omega) hge h5
    · have hm : max_k = k + 1 := by omega
      subst hm
      have hs : searchLoop p b (fuel + 1) k (k + 1) = (k, k + 1) := by
        simp only [searchLoop, hc, if_false]
      rw [hs]
      exact ⟨h4, h5, by omega, by omega⟩

/-- Whatever the operands, 32 rounds are enough for the binary search started at
`k = 0`, `max_k = 2 ^ 32`: the final state fails the loop condition `k < max_k - 1`. -/
theorem searchLoop_exits (p b : List Nat) :
    ∀ (fuel k max_k : Nat), k < max_k → max_k ≤ 2 ^ 32 → max_k - k ≤ 2 ^ fuel →
      ¬ ((searchLoop p b fuel k max_k).1 < (searchLoop p b fuel k max_k).2 - 1) := by
  intro fuel
  induction fuel with
  | zero =>
    intro k max_k h1 _ h3
    have hm : max_k = k + 1 := by simp at h3; omega
    subst hm
    simp only [searchLoop]
    omega
  | succ fuel ih =>
    intro k max_k h1 h2 h3
    rw [Nat.pow_succ] at h3
    by_cases hc : k < max_k - 1
    · have hmid1 : k < (max_k + k) / 2 := by omega
      have hmid2 : (max_k + k) / 2 < max_k := by omega
      have hmod : (max_k + k) / 2 % 2 ^ 32 = (max_k + k) / 2 := Nat.mod_eq_of_lt (by omega)
      by_cases hl : less p (mult_limb b ((max_k + k) / 2)) = true
      · have hs : searchLoop p b (fuel + 1) k max_k = searchLoop p b fuel k ((max_k + k) / 2) := by
          simp only [searchLoop, hc, if_true, hmod, hl]
        rw [hs]
        exact ih k _ hmid1 (by omega) (by omega)
      · have hs : searchLoop p b (fuel + 1) k max_k =
            searchLoop p b fuel ((max_k + k) / 2) max_k := by
          simp only [searchLoop, hc, if_true, hmod, hl]
          rfl
        rw [hs]
        exact ih _ max_k hmid2 h2 (by omega)
    · have hs : searchLoop p b (fuel + 1) k max_k = (k, max_k) := by
        simp only [searchLoop, hc, if_false]
      rw [hs]
      exact hc

/-- One round of the outer loop: the window `a[i] :: p` is divided by `b`. -/
theorem divStep_spec (b : List Nat) (hb : Canonical b) (r p : List Nat)
    (ai : Nat) (hp : Limbs p) (hpb : val p < val b) (hai : ai < 2 ^ 32) :
    ∃ (k : Nat) (p2 : List Nat), divStep b (r, p) ai = (r ++ [k], p2) ∧ k < 2 ^ 32 ∧
      Canonical p2 ∧ ai + 2 ^ 32 * val p = k * val b + val p2 ∧ val p2 < val b := by
  have hw : Limbs (ai :: p) := limbs_cons.2 ⟨hai, hp⟩
  have hc1 := canonical_delete_leading_zeros (ai :: p) hw
  have hv1 : val (delete_leading_zeros (ai :: p)) = ai + 2 ^ 32 * val p := by
    rw [val_delete_leading_zeros]; rfl
  have hlt : val (delete_leading_zeros (ai :: p)) < 2 ^ 32 * val b := by
    rw [hv1]
    have : 2 ^ 32 * (val p + 1) ≤ 2 ^ 32 * val b := Nat.mul_le_mul_left _ hpb
    rw [Nat.mul_add] at this
    omega
  obtain ⟨s1, s2, s3, _⟩ := searchLoop_spec (delete_leading_zeros (ai :: p)) b hc1 hb 32 0
    (2 ^ 32) (by norm_num) (le_refl _) (by norm_num) (by simp) hlt
  obtain ⟨k, hk⟩ : ∃ k, k = (searchLoop (delete_leading_zeros (ai :: p)) b 32 0 (2 ^ 32)).1 :=
    ⟨_, rfl⟩
  rw [← hk] at s1 s2 s3
  have ht := mult_limb_spec b k hb.1 s3
  have hsub := sub_spec_of_le (delete_leading_zeros (ai :: p)) (mult_limb b k) hc1.1 ht.1
    (by rw [ht.2.1, Nat.mul_comm]; exact s1)
  refine ⟨k, sub (delete_leading_zeros (ai :: p)) (mult_limb b k), ?_, s3, hsub.1, ?_, ?_⟩
  · rw [hk]; rfl
  · rw [hsub.2, ht.2.1, ← hv1, Nat.mul_comm (val b)]; omega
  · rw [hsub.2, ht.2.1, Nat.mul_comm (val b)]
    rw [Nat.add_mul] at s2
    omega

/-- Invariant of the outer loop over the limbs `xs` that enter the window, highest first. -/
theorem div_fold_spec (b : List Nat) (hb : Canonical b) (xs : List Nat) :
    ∀ (r p : List Nat), Limbs xs → Limbs p → val p < val b →
      ∃ (qs p2 : List Nat), xs.foldl (divStep b) (r, p) = (r ++ qs, p2) ∧
        qs.length = xs.length ∧ Limbs qs ∧ Limbs p2 ∧ val p2 < val b ∧
        val (xs.reverse ++ p) = val qs.reverse * val b + val p2 ∧
        (xs ≠ [] → Canonical p2) := by
  induction xs with
  | nil =>
    intro r p _ hp hpb
    exact ⟨[], p, by simp, rfl, limbs_nil, hp, hpb, by simp [val], fun h => absurd rfl h⟩
  | cons x xs ih =>
    intro r p hxs hp hpb
    obtain ⟨k, p2, e1, hk, hc2, hv2, hlt2⟩ :=
      divStep_spec b hb r p x hp hpb (limbs_cons.1 hxs).1
    obtain ⟨qs, p3, e2, hl, hq, hp3, hlt3, hv3, hc3⟩ :=
      ih (r ++ [k]) p2 (limbs_cons.1 hxs).2 hc2.1 hlt2
    refine ⟨k :: qs, p3, ?_, by simp [hl], limbs_cons.2 ⟨hk, hq⟩, hp3, hlt3, ?_, ?_⟩
    · rw [List.foldl_cons, e1, e2]; simp
    · rw [val_append] at hv3
      rw [List.reverse_cons, List.reverse_cons, List.append_assoc, List.singleton_append,
        val_append, val_append qs.reverse]
      simp only [val, List.length_reverse, hl, Nat.mul_zero, Nat.add_zero] at hv3 ⊢
      rw [hv2]
      rw [Nat.add_mul, Nat.mul_add]
      have : 2 ^ (32 * xs.length) * k * val b = 2 ^ (32 * xs.length) * (k * val b) := by ring
      omega
    · intro _
      by_cases h0 : xs = []
      · subst h0
        simp only [List.foldl_nil] at e2
        have : p3 = p2 := by
          have := congrArg Prod.snd e2
          simpa using this.symm
        rw [this]; exact hc2
      · exact hc3 h0

theorem map_getD_range (a : List Nat) (m : Nat) (h : m ≤ a.length) :
    (List.range m).map (fun i => a.getD i 0) = a.take m := by
  induction m with
  | zero => simp
  | succ m ih =>
    have hm : m < a.length := by omega
    rw [List.range_succ, List.map_append, ih (by omega), List.map_singleton,
      List.take_succ]
    congr 1
    rw [List.getD_eq_getElem?_getD, List.getElem?_eq_getElem hm]
    simp

/-- Correctness of magnitude division on canonical operands with a non-zero divisor: a
pair comes back, canonical, with the division equation and a remainder below the
divisor. -/
theorem div_spec (a b : List Nat) (ha : Canonical a) (hb : Canonical b) (hne : b ≠ []) :
    ∃ q r, div a b = some (q, r) ∧ Canonical q ∧ Canonical r ∧
      val a = val q * val b + val r ∧ val r < val b := by
  have hbl0 : ¬ (b.length = 0) := fun h => hne (List.length_eq_zero.1 h)
  by_cases hl : less a b = true
  · have hd : div a b = some ([], a) := by simp [div, hl]
    exact ⟨[], a, hd, canonical_nil, ha, by simp [val], (less_iff a b ha hb).1 hl⟩
  · have hge : val b ≤ val a := by
      by_contra hcon
      exact hl ((less_iff a b ha hb).2 (by omega))
    have hlen : b.length ≤ a.length := by
      by_contra hcon
      have := val_lt_of_length_lt a b ha.1 hb (by omega)
      omega
    have hbl : 1 ≤ b.length := by omega
    have hsplit : a.take (a.length - b.length + 1) ++ a.drop (a.length - b.length + 1) = a :=
      List.take_append_drop _ _
    have hL : Limbs (a.take (a.length - b.length + 1)) ∧
        Limbs (a.drop (a.length - b.length + 1)) := by
      have := ha.1
      rw [← hsplit] at this
      exact limbs_append.1 this
    have hp0 : val (a.drop (a.length - b.length + 1)) < val b := by
      have h1 := val_lt _ hL.2
      have h2 := canonical_val_ge b hb hne
      have h3 : (a.drop (a.length - b.length + 1)).length = b.length - 1 := by
        rw [List.length_drop]; omega
      rw [h3] at h1
      omega
    obtain ⟨qs, p2, e, hql, hq, _, hlt, hv, hc⟩ := div_fold_spec b hb
      (a.take (a.length - b.length + 1)).reverse [] (a.drop (a.length - b.length + 1))
      (limbs_reverse.2 hL.1) hL.2 hp0
    have hloop : divLoop a b = (delete_leading_zeros qs.reverse, p2) := by
      have h1 : a.length + 1 - b.length = a.length - b.length + 1 := by omega
      have h2 : (List.range (a.length - b.length + 1)).reverse.map (fun i => a.getD i 0) =
          (a.take (a.length - b.length + 1)).reverse := by
        rw [List.map_reverse, map_getD_range a _ (by omega)]
      simp only [divLoop, h1, h2, e]
      simp
    have hd : div a b = some (delete_leading_zeros qs.reverse, p2) := by
      simp only [div, hl, hbl0, if_false, hloop, Bool.false_eq_true]
    have hxne : (a.take (a.length - b.length + 1)).reverse ≠ [] := by
      intro h0
      have := congrArg List.length h0
      rw [List.length_reverse, List.length_take, List.length_nil] at this
      omega
    refine ⟨_, _, hd, canonical_delete_leading_zeros _ (limbs_reverse.2 hq), hc hxne, ?_, hlt⟩
    rw [List.reverse_reverse, hsplit] at hv
    simp only [val_delete_leading_zeros]
    exact hv

theorem div_val (a b : List Nat) (ha : Canonical a) (hb : Canonical b) (hne : b ≠ []) :
    ∃ q r, div a b = some (q, r) ∧ Canonical q ∧ Canonical r ∧
      val q = val a / val b ∧ val r = val a % val b := by
  obtain ⟨q, r, hd, hq, hr, h3, h4⟩ := div_spec a b ha hb hne
  have hpos := val_pos_of_canonical b hb hne
  refine ⟨q, r, hd, hq, hr, ?_, ?_⟩
  · rw [h3]
    rw [Nat.mul_comm, Nat.mul_add_div hpos, Nat.div_eq_of_lt h4]; simp
  · rw [h3]
    rw [Nat.mul_comm, Nat.mul_add_mod, Nat.mod_eq_of_lt h4]

/-! ## The signed wrapper -/

theorem val_pos_of_wellFormed_negative (a : BigInt) (ha : WellFormed a)
    (hn : a.negative = true) : 0 < val a.value := by
  have hne : a.value ≠ [] := by
    intro h0
    have := ha.2 h0
    rw [hn] at this
    exact Bool.noConfusion this
  exact val_pos_of_canonical a.value ha.1 hne

/-- A well-formed value is determined by the integer it denotes. -/
theorem wellFormed_ext (x y : BigInt) (hx : WellFormed x) (hy : WellFormed y)
    (h : toInt x = toInt y) : x = y := by
  obtain ⟨xv, xn⟩ := x
  obtain ⟨yv, yn⟩ := y
  cases xn <;> cases yn
  · simp only [toInt, Bool.false_eq_true, if_false] at h
    have : val xv = val yv := by exact_mod_cast h
    rw [canonical_ext xv yv hx.1 hy.1 this]
  · have hp := val_pos_of_wellFormed_negative ⟨yv, true⟩ hy rfl
    simp only [toInt, Bool.false_eq_true, if_false, if_true] at h hp
    omega
  · have hp := val_pos_of_wellFormed_negative ⟨xv, true⟩ hx rfl
    simp only [toInt, Bool.false_eq_true, if_false, if_true] at h hp
    omega
  · simp only [toInt, if_true] at h
    have : val xv = val yv := by omega
    rw [canonical_ext xv yv hx.1 hy.1 this]

theorem lt_self (x : BigInt) : lt x x = false := by
  simp [lt, less_self]

theorem eq_refl_true (x : BigInt) : eq x x = true := by
  simp [eq, lt_self]

theorem lt_iff (a b : BigInt) (ha : WellFormed a) (hb : WellFormed b) :
    lt a b = true ↔ toInt a < toInt b := by
  have hl1 := less_iff a.value b.value ha.1 hb.1
  have hl2 := less_iff b.value a.value hb.1 ha.1
  obtain ⟨av, an⟩ := a
  obtain ⟨bv, bn⟩ := b
  simp only at hl1 hl2
  cases an <;> cases bn
  · simp only [lt, toInt, ne_eq, not_true_eq_false, if_false, Bool.not_false, Bool.true_and,
      Bool.false_and, Bool.or_false, Bool.false_eq_true]
    rw [hl1]; exact Nat.cast_lt.symm
  · have hp := val_pos_of_wellFormed_negative ⟨bv, true⟩ hb rfl
    simp only [lt, toInt, ne_eq, Bool.false_eq_true, not_false_eq_true, if_true, if_false,
      false_iff] at hp ⊢
    omega
  · have hp := val_pos_of_wellFormed_negative ⟨av, true⟩ ha rfl
    simp only [lt, toInt, ne_eq, Bool.true_eq_false, not_false_eq_true, if_true, if_false,
      Bool.false_eq_true, true_iff] at hp ⊢
    omega
  · simp only [lt, toInt, ne_eq, not_true_eq_false, if_false, Bool.not_true, Bool.true_and,
      Bool.false_and, Bool.false_or, if_true]
    rw [hl2]
    constructor
    · intro h; omega
    · intro h; omega

theorem toInt_op_mul (a b : BigInt) (ha : Limbs a.value) (hb : Limbs b.value) :
    toInt (op_mul a b) = toInt a * toInt b := by
  have hv := val_mult a.value b.value ha hb
  obtain ⟨av, an⟩ := a
  obtain ⟨bv, bn⟩ := b
  simp only at hv
  cases an <;> cases bn <;> simp [op_mul, toInt, hv]

/-- With a non-zero well-formed divisor `operator/=` and `operator%=` return: the
magnitudes are the two components of `div`. -/
theorem op_div_mod_spec (a b : BigInt) (ha : WellFormed a) (hb : WellFormed b)
    (hne : b.value ≠ []) :
    ∃ q r : List Nat, op_div a b = some ⟨q, a.negative != b.negative⟩ ∧
      op_mod a b = some ⟨r, a.negative⟩ ∧ Canonical q ∧ Canonical r ∧
      val a.value = val q * val b.value + val r ∧ val r < val b.value := by
  obtain ⟨q, r, hd, hq, hr, h3, h4⟩ := div_spec a.value b.value ha.1 hb.1 hne
  exact ⟨q, r, by simp [op_div, hd], by simp [op_mod, hd], hq, hr, h3, h4⟩

theorem toInt_op_div_mod (a b : BigInt) (ha : WellFormed a) (hb : WellFormed b)
    (hne : b.value ≠ []) :
    ∃ q r : BigInt, op_div a b = some q ∧ op_mod a b = some r ∧
      toInt q = Int.tdiv (toInt a) (toInt b) ∧ toInt r = Int.tmod (toInt a) (toInt b) := by
  obtain ⟨q, r, hq, hr, _, _, h3, h4⟩ := op_div_mod_spec a b ha hb hne
  have hpos := val_pos_of_canonical b.value hb.1 hne
  have hv : val q = val a.value / val b.value := by
    rw [h3, Nat.mul_comm, Nat.mul_add_div hpos, Nat.div_eq_of_lt h4]; simp
  have h3i : (val a.value : Int) = (val q : Int) * (val b.value : Int) + (val r : Int) := by
    exact_mod_cast h3
  have hdiv : toInt (BigInt.mk q (a.negative != b.negative)) = Int.tdiv (toInt a) (toInt b) := by
    obtain ⟨av, an⟩ := a
    obtain ⟨bv, bn⟩ := b
    simp only at hv
    cases an <;> cases bn <;>
      simp [toInt, hv, Int.neg_tdiv, Int.tdiv_neg] <;>
      exact (Int.tdiv_eq_ediv (Int.ofNat_nonneg _) (Int.ofNat_nonneg _)).symm
  refine ⟨_, _, hq, hr, hdiv, ?_⟩
  rw [Int.tmod_def, ← hdiv]
  obtain ⟨av, an⟩ := a
  obtain ⟨bv, bn⟩ := b
  simp only at h3i
  cases an <;> cases bn <;> simp [toInt, h3i] <;> ring

/-- The division identity, as an equation between values. -/
theorem div_mul_add_mod (a b : BigInt) (ha : WellFormed a) (hb : WellFormed b)
    (hne : b.value ≠ []) :
    ∃ q r : BigInt, op_div a b = some q ∧ op_mod a b = some r ∧
      op_add (op_mul q b) r = a := by
  obtain ⟨q, r, hq, hr, hcq, hcr, h3, _⟩ := op_div_mod_spec a b ha hb hne
  refine ⟨_, _, hq, hr, ?_⟩
  have hcm := canonical_mult q b.value hcq hb.1 hne
  have hca := canonical_add _ _ hcm hcr
  have hva : val (add (mult q b.value) r) = val a.value := by
    rw [val_add _ _ hcm.1 hcr.1, val_mult _ _ hcq.1 hb.1.1, h3]
  have hlist := canonical_ext _ _ hca ha.1 hva
  obtain ⟨av, an⟩ := a
  obtain ⟨bv, bn⟩ := b
  simp only at hlist
  have hflag : ((an != bn) != bn) = an := by cases an <;> cases bn <;> rfl
  simp only [op_add, op_mul, hflag, if_true, hlist]

/-! ## Parsing decimal text -/

theorem char_ne_zero_iff (c : Char) : c ≠ '0' ↔ c.toNat ≠ 48 := by
  constructor
  · intro h h2
    apply h
    rw [← Char.ofNat_toNat c, h2]
  · intro h h2
    subst h2
    exact h rfl

theorem digitOfChar_eq (c : Char) (h : IsDigit c) : digitOfChar c = c.toNat - 48 := by
  unfold digitOfChar
  obtain ⟨h1, h2⟩ := h
  omega

theorem parseStep_spec (v : List Nat) (c : Char) (hv : Canonical v) (hc : IsDigit c) :
    Canonical (parseStep v c) ∧ val (parseStep v c) = 10 * val v + (c.toNat - 48) := by
  have hm := canonical_mult_limb v 10 hv (by norm_num) (by norm_num)
  have hmv := val_mult_limb v 10 hv.1 (by norm_num)
  by_cases h0 : c = '0'
  · subst h0
    have : parseStep v '0' = mult_limb v 10 := by simp [parseStep]
    rw [this, hmv]
    exact ⟨hm, by rw [Nat.mul_comm]; rfl⟩
  · have hd := digitOfChar_eq c hc
    have hne := (char_ne_zero_iff c).1 h0
    have hs : parseStep v c = add (mult_limb v 10) [c.toNat - 48] := by
      simp only [parseStep, ne_eq, h0, not_false_eq_true, if_true, hd]
    have hlim : c.toNat - 48 < 2 ^ 32 := by
      have := hc.2; omega
    have hcd : Canonical [c.toNat - 48] := by
      refine ⟨by intro x hx; simp at hx; subst hx; exact hlim, ?_⟩
      have := hc.1
      simp only [List.getLast?_singleton, ne_eq, Option.some.injEq]
      omega
    rw [hs]
    refine ⟨canonical_add _ _ hm hcd, ?_⟩
    rw [val_add _ _ hm.1 hcd.1, hmv]
    simp only [val]; omega

theorem parse_fold_spec (ds : List Char) :
    ∀ (v : List Nat), (∀ c ∈ ds, IsDigit c) → Canonical v →
      Canonical (ds.foldl parseStep v) ∧
      val (ds.foldl parseStep v) = ds.foldl (fun n c => 10 * n + (c.toNat - 48)) (val v) := by
  induction ds with
  | nil => intro v _ hv; exact ⟨hv, rfl⟩
  | cons c cs ih =>
    intro v hds hv
    obtain ⟨h1, h2⟩ := parseStep_spec v c hv (hds c (List.mem_cons_self _ _))
    have := ih (parseStep v c) (fun x hx => hds x (List.mem_cons_of_mem _ hx)) h1
    rw [List.foldl_cons, List.foldl_cons, ← h2]
    exact this

theorem head_ne_minus (ds : List Char) (hds : ∀ c ∈ ds, IsDigit c) :
    ds.head? ≠ some '-' := by
  cases ds with
  | nil => simp
  | cons c cs =>
    intro h
    have hc : c = '-' := by simpa using h
    have := (hds c (List.mem_cons_self _ _)).1
    rw [hc] at this
    exact absurd this (by decide)

theorem parse_digits (ds : List Char) (hds : ∀ c ∈ ds, IsDigit c) :
    parse ds = ⟨ds.foldl parseStep [], false⟩ := by
  by_cases h0 : ds = []
  · subst h0; rfl
  · have hh := head_ne_minus ds hds
    simp [parse, h0, hh]

theorem parse_minus_digits (ds : List Char) :
    parse ('-' :: ds) =
      ⟨ds.foldl parseStep [], if (ds.foldl parseStep []).length = 0 then false else true⟩ := by
  simp [parse]

/-- A digit run parses to a well-formed value denoting the number written, and so does
the run with a leading minus sign, negated. -/
theorem parse_spec (ds : List Char) (hds : ∀ c ∈ ds, IsDigit c) :
    WellFormed (parse ds) ∧ toInt (parse ds) = (decimalValue ds : Int) ∧
    WellFormed (parse ('-' :: ds)) ∧ toInt (parse ('-' :: ds)) = -(decimalValue ds : Int) := by
  obtain ⟨h1, h2⟩ := parse_fold_spec ds [] hds canonical_nil
  have h2' : val (ds.foldl parseStep []) = decimalValue ds := h2
  rw [parse_digits ds hds, parse_minus_digits ds]
  refine ⟨⟨h1, fun _ => rfl⟩, ?_, ⟨h1, ?_⟩, ?_⟩
  · simp [toInt, h2']
  · intro h
    have h' : ds.foldl parseStep [] = [] := h
    simp [h']
  · by_cases hl : (ds.foldl parseStep []).length = 0
    · have hnil : ds.foldl parseStep [] = [] := List.length_eq_zero.1 hl
      rw [hnil] at h2'
      simp only [toInt, hl, if_true, Bool.false_eq_true, if_false, hnil]
      rw [← h2']; simp [val]
    · simp [toInt, hl, h2']

theorem decimalValue_append (a b : List Char) :
    decimalValue (a ++ b) = b.foldl (fun n c => 10 * n + (c.toNat - 48)) (decimalValue a) := by
  simp [decimalValue, List.foldl_append]

theorem decimalValue_zeros (n : Nat) : decimalValue (List.replicate n '0') = 0 := by
  induction n with
  | zero => rfl
  | succ n ih =>
    rw [List.replicate_succ', decimalValue_append, ih]; rfl

theorem decimalValue_zeros_append (n : Nat) (ds : List Char) :
    decimalValue (List.replicate n '0' ++ ds) = decimalValue ds := by
  rw [decimalValue_append, decimalValue_zeros]; rfl

theorem isDigit_zeros_append (n : Nat) (ds : List Char) (hds : ∀ c ∈ ds, IsDigit c) :
    ∀ c ∈ List.replicate n '0' ++ ds, IsDigit c := by
  intro c hc
  rcases List.mem_append.1 hc with h | h
  · rw [(List.mem_replicate.1 h).2]; decide
  · exact hds c h

/-! ## Formatting, and the decimal round trip -/

theorem canonical_ten : Canonical [10] := by decide

theorem rem_digit (r : List Nat) (hr : Canonical r) (hv : val r < 10) :
    (if r.length > 0 then r.getD 0 0 else 0) = val r := by
  cases r with
  | nil => rfl
  | cons x xs =>
    cases xs with
    | nil => simp [val]
    | cons y ys =>
      have := canonical_val_ge (x :: y :: ys) hr (by simp)
      have h2 : 2 ^ (32 * 1) ≤ 2 ^ (32 * ((x :: y :: ys).length - 1)) :=
        Nat.pow_le_pow_right (by norm_num) (by simp)
      omega

theorem digitChar_spec (r : List Nat) (hr : Canonical r) (hv : val r < 10) :
    digitChar r = Char.ofNat (48 + val r) := by
  unfold digitChar
  rw [rem_digit r hr hv]
  congr 1
  omega

/-- With enough rounds the loop of `operator std::string` ends, having appended the
decimal digits of the magnitude, lowest first. -/
theorem toStringLoop_spec (fuel : Nat) :
    ∀ (p : List Nat) (s : List Char), Canonical p → val p < 10 ^ fuel →
      toStringLoop fuel p s =
        some (s ++ (Nat.digits 10 (val p)).map (fun d => Char.ofNat (48 + d))) := by
  induction fuel with
  | zero =>
    intro p s hp hv
    have h0 : val p = 0 := by simpa using hv
    have hnil := val_eq_zero_of_canonical p hp h0
    subst hnil
    simp [toStringLoop, val]
  | succ fuel ih =>
    intro p s hp hv
    by_cases hl : p.length > 0
    · have hne : p ≠ [] := by intro h0; subst h0; simp at hl
      have hpos := val_pos_of_canonical p hp hne
      obtain ⟨q, r, hd, d1, d2, e1, e2⟩ := div_val p [10] hp canonical_ten (by simp)
      have hten : val [10] = 10 := by simp [val]
      rw [hten] at e1 e2
      have d4 : val r < 10 := by
        rw [e2]; exact Nat.mod_lt _ (by norm_num)
      have hq : val q < 10 ^ fuel := by
        rw [e1]
        rw [Nat.pow_succ] at hv
        exact Nat.div_lt_of_lt_mul (by rw [Nat.mul_comm]; exact hv)
      have hs : toStringLoop (fuel + 1) p s = toStringLoop fuel q (s ++ [digitChar r]) := by
        simp only [toStringLoop, hl, if_true, hd]
      rw [hs, ih _ _ d1 hq, digitChar_spec _ d2 d4, e1, e2,
        Nat.digits_def' (by norm_num) hpos]
      simp
    · have hnil : p = [] := List.length_eq_zero.1 (by omega)
      subst hnil
      simp [toStringLoop, val]

theorem val_lt_ten_pow (a : List Nat) (ha : Limbs a) : val a < 10 ^ (10 * a.length) := by
  have h1 := val_lt a ha
  have h2 : 2 ^ (32 * a.length) ≤ 10 ^ (10 * a.length) := by
    rw [pow_mul, pow_mul]
    exact Nat.pow_le_pow_left (by norm_num) _
  omega

/-- The text of a well-formed non-zero value: an optional minus sign, then the decimal
digits of the magnitude, highest first. -/
theorem toString_spec (x : BigInt) (hx : WellFormed x) (hne : x.value ≠ []) :
    toString x = some ((if x.negative then ['-'] else []) ++
      ((Nat.digits 10 (val x.value)).map (fun d => Char.ofNat (48 + d))).reverse) := by
  have hl : ¬ (x.value.length = 0) := fun h => hne (List.length_eq_zero.1 h)
  have := toStringLoop_spec (10 * x.value.length) x.value [] hx.1 (val_lt_ten_pow _ hx.1.1)
  simp only [toString, hl, if_false, this, Option.map_some']
  cases x.negative <;> simp

theorem digit_char_spec (d : Nat) (h : d < 10) :
    IsDigit (Char.ofNat (48 + d)) ∧ (Char.ofNat (48 + d)).toNat - 48 = d := by
  interval_cases d <;> decide

theorem decimalValue_digits (ds : List Nat) (hds : ∀ d ∈ ds, d < 10) :
    decimalValue (ds.map (fun d => Char.ofNat (48 + d))).reverse = Nat.ofDigits 10 ds := by
  induction ds with
  | nil => rfl
  | cons d ds ih =>
    have hd := digit_char_spec d (hds d (List.mem_cons_self _ _))
    rw [List.map_cons, List.reverse_cons, decimalValue_append,
      ih (fun x hx => hds x (List.mem_cons_of_mem _ hx)), Nat.ofDigits_cons]
    simp only [List.foldl_cons, List.foldl_nil, hd.2]
    ring

/-- The digit text of a magnitude: all digits, and it reads back as the value. -/
theorem digits_text_spec (n : Nat) :
    (∀ c ∈ ((Nat.digits 10 n).map (fun d => Char.ofNat (48 + d))).reverse, IsDigit c) ∧
    decimalValue ((Nat.digits 10 n).map (fun d => Char.ofNat (48 + d))).reverse = n := by
  have hlt : ∀ d ∈ Nat.digits 10 n, d < 10 := fun d hd => Nat.digits_lt_base (by norm_num) hd
  constructor
  · intro c hc
    rw [List.mem_reverse, List.mem_map] at hc
    obtain ⟨d, hd, rfl⟩ := hc
    exact (digit_char_spec d (hlt d hd)).1
  · rw [decimalValue_digits _ hlt, Nat.ofDigits_digits]

/-- Formatting a well-formed value succeeds, and the text parses back to the value. -/
theorem parse_toString (x : BigInt) (hx : WellFormed x) :
    ∃ s, toString x = some s ∧ parse s = x := by
  by_cases hne : x.value = []
  · have hneg := hx.2 hne
    obtain ⟨xv, xn⟩ := x
    simp only at hne hneg
    subst hne; subst hneg
    exact ⟨['0'], rfl, by decide⟩
  · obtain ⟨hdig, hval⟩ := digits_text_spec (val x.value)
    obtain ⟨p1, p2, p3, p4⟩ := parse_spec _ hdig
    rw [hval] at p2 p4
    refine ⟨_, toString_spec x hx hne, ?_⟩
    obtain ⟨xv, xn⟩ := x
    cases xn
    · simp only [Bool.false_eq_true, if_false, List.nil_append]
      exact wellFormed_ext _ _ p1 hx (by rw [p2]; simp [toInt])
    · simp only [if_true, List.singleton_append]
      exact wellFormed_ext _ _ p3 hx (by rw [p4]; simp [toInt])

/-! ## The claims -/

set_option maxRecDepth 100000

theorem value_ne_nil_of_toInt_ne_zero (b : BigInt) (h : toInt b ≠ 0) : b.value ≠ [] := by
  intro h0
  apply h
  unfold toInt
  rw [h0]
  cases b.negative <;> simp [val]

/-- C1, at a failing input: `0 + (-(2^64 + 1))`, both operands well-formed (the right one is
what `"-18446744073709551617"` parses to).  The magnitudes are subtracted with a final
borrow, `invert` raises its `overflow` flag at the all-ones limb although nothing was
carried, and `operator+=` stores the limbs `[1, 0, 2]`, which denote `-(2^65 + 1)`, not the
sum. -/
theorem op_add_wrong_after_borrow :
    WellFormed (BigInt.mk [] false) ∧ WellFormed (BigInt.mk [1, 0, 1] true) ∧
    parse "-18446744073709551617".toList = BigInt.mk [1, 0, 1] true ∧
    invert [4294967295, 4294967295, 4294967294] = [1, 0, 2] ∧
    op_add (BigInt.mk [] false) (BigInt.mk [1, 0, 1] true) = BigInt.mk [1, 0, 2] true ∧
    toInt (op_add (BigInt.mk [] false) (BigInt.mk [1, 0, 1] true)) ≠
      toInt (BigInt.mk [] false) + toInt (BigInt.mk [1, 0, 1] true) := by
  decide

/-- C2, at a failing input: `0 - (2^64 + 1)`, both operands well-formed (the right one is
what `"18446744073709551617"` parses to).  `operator-=` flips the sign and calls `sub`,
whose `invert` step returns the limbs `[1, 0, 2]`: the result denotes `-(2^65 + 1)` and
formats as `"-36893488147419103233"`, not as the difference. -/
theorem op_sub_wrong_after_borrow :
    WellFormed (BigInt.mk [] false) ∧ WellFormed (BigInt.mk [1, 0, 1] false) ∧
    parse "18446744073709551617".toList = BigInt.mk [1, 0, 1] false ∧
    op_sub (BigInt.mk [] false) (BigInt.mk [1, 0, 1] false) = BigInt.mk [1, 0, 2] true ∧
    toInt (op_sub (BigInt.mk [] false) (BigInt.mk [1, 0, 1] false)) ≠
      toInt (BigInt.mk [] false) - toInt (BigInt.mk [1, 0, 1] false) ∧
    toString (op_sub (parse "0".toList) (parse "18446744073709551617".toList)) =
      some "-36893488147419103233".toList := by
  decide

/-- C3: for well-formed `a` and `b` the product `a * b` (sign flag the xor of the flags,
magnitude the schoolbook `mult`) denotes `int(a) * int(b)`; and
`"999999999999" * "999999999999"` formats as `"999999999998000000000001"`. -/
theorem op_mul_correct (a b : BigInt) (ha : WellFormed a) (hb : WellFormed b) :
    toInt (op_mul a b) = toInt a * toInt b ∧
    (op_mul a b).negative = xor a.negative b.negative ∧
    toString (op_mul (parse "999999999999".toList) (parse "999999999999".toList)) =
      some "999999999998000000000001".toList := by
  refine ⟨toInt_op_mul a b ha.1.1 hb.1.1, ?_, by decide⟩
  show (a.negative != b.negative) = xor a.negative b.negative
  cases a.negative <;> cases b.negative <;> rfl

theorem op_mul_correct_witness :
    WellFormed (BigInt.mk [3, 9] true) ∧ WellFormed (BigInt.mk [5, 7, 11] false) ∧
    toInt (op_mul (BigInt.mk [3, 9] true) (BigInt.mk [5, 7, 11] false)) =
      toInt (BigInt.mk [3, 9] true) * toInt (BigInt.mk [5, 7, 11] false) :=
  ⟨by decide, by decide, (op_mul_correct _ _ (by decide) (by decide)).1⟩

/-- C4: for well-formed `a` and non-zero well-formed `b`, `a / b` and `a % b` return values:
`a / b` denotes the quotient rounded toward zero and `a % b` the remainder with the
dividend's sign; `1000 / 7` formats as `"142"`, `1000 % 7` as `"6"` and `-7 % 3` as
`"-1"`. -/
theorem op_div_mod_truncating (a b : BigInt) (ha : WellFormed a) (hb : WellFormed b)
    (hne : toInt b ≠ 0) :
    (∃ q r : BigInt, op_div a b = some q ∧ op_mod a b = some r ∧
      toInt q = Int.tdiv (toInt a) (toInt b) ∧ toInt r = Int.tmod (toInt a) (toInt b)) ∧
    (op_div (parse "1000".toList) (parse "7".toList)).bind toString = some "142".toList ∧
    (op_mod (parse "1000".toList) (parse "7".toList)).bind toString = some "6".toList ∧
    (op_mod (parse "-7".toList) (parse "3".toList)).bind toString = some "-1".toList := by
  have h := value_ne_nil_of_toInt_ne_zero b hne
  exact ⟨toInt_op_div_mod a b ha hb h, by decide, by decide, by decide⟩

theorem op_div_mod_truncating_witness :
    WellFormed (BigInt.mk [7, 5, 1] true) ∧ WellFormed (BigInt.mk [9, 2] false) ∧
    toInt (BigInt.mk [9, 2] false) ≠ 0 ∧
    ∃ q r : BigInt, op_div (BigInt.mk [7, 5, 1] true) (BigInt.mk [9, 2] false) = some q ∧
      op_mod (BigInt.mk [7, 5, 1] true) (BigInt.mk [9, 2] false) = some r ∧
      toInt q = Int.tdiv (toInt (BigInt.mk [7, 5, 1] true)) (toInt (BigInt.mk [9, 2] false)) ∧
      toInt r = Int.tmod (toInt (BigInt.mk [7, 5, 1] true)) (toInt (BigInt.mk [9, 2] false)) :=
  ⟨by decide, by decide, by decide,
    (op_div_mod_truncating _ _ (by decide) (by decide) (by decide)).1⟩

/-- C5: for well-formed `a` and non-zero well-formed `b`, `a / b` and `a % b` return values
`q` and `r`, the expression `q * b + r` computed with the class's operators compares equal
to `a` under `operator==`, and `r` is zero or has the sign of `a`. -/
theorem division_identity (a b : BigInt) (ha : WellFormed a) (hb : WellFormed b)
    (hne : toInt b ≠ 0) :
    ∃ q r : BigInt, op_div a b = some q ∧ op_mod a b = some r ∧
      eq (op_add (op_mul q b) r) a = true ∧
      (toInt r = 0 ∨ Int.sign (toInt r) = Int.sign (toInt a)) := by
  have h := value_ne_nil_of_toInt_ne_zero b hne
  obtain ⟨q, r, hq, hr, hsum⟩ := div_mul_add_mod a b ha hb h
  obtain ⟨_, r0, _, hr0, _, _, h3, _⟩ := op_div_mod_spec a b ha hb h
  have hreq : r = ⟨r0, a.negative⟩ := by
    rw [hr] at hr0
    exact Option.some.inj hr0
  refine ⟨q, r, hq, hr, by rw [hsum]; exact eq_refl_true a, ?_⟩
  rw [hreq]
  by_cases hz : val r0 = 0
  · left
    unfold toInt
    cases a.negative <;> simp [hz]
  · right
    have hrp : 0 < val r0 := Nat.pos_of_ne_zero hz
    have hapos : 0 < val a.value := by omega
    have hr' : (0 : Int) < (val r0 : Int) := by exact_mod_cast hrp
    have ha' : (0 : Int) < (val a.value : Int) := by exact_mod_cast hapos
    unfold toInt
    cases a.negative
    · simp only [Bool.false_eq_true, if_false]
      rw [Int.sign_eq_one_of_pos hr', Int.sign_eq_one_of_pos ha']
    · simp only [if_true]
      rw [Int.sign_eq_neg_one_of_neg (by omega), Int.sign_eq_neg_one_of_neg (by omega)]

theorem division_identity_witness :
    WellFormed (BigInt.mk [7, 5, 1] true) ∧ WellFormed (BigInt.mk [9, 2] true) ∧
    toInt (BigInt.mk [9, 2] true) ≠ 0 ∧
    ∃ q r : BigInt, op_div (BigInt.mk [7, 5, 1] true) (BigInt.mk [9, 2] true) = some q ∧
      op_mod (BigInt.mk [7, 5, 1] true) (BigInt.mk [9, 2] true) = some r ∧
      eq (op_add (op_mul q (BigInt.mk [9, 2] true)) r) (BigInt.mk [7, 5, 1] true) = true ∧
      (toInt r = 0 ∨ Int.sign (toInt r) = Int.sign (toInt (BigInt.mk [7, 5, 1] true))) :=
  ⟨by decide, by decide, by decide,
    division_identity _ _ (by decide) (by decide) (by decide)⟩

/-- C6: for well-formed `a` and `b`, `operator<` is true exactly when `int(a) < int(b)`; a
negative value is below a non-negative one, two negatives compare by magnitude in reverse;
and `"-5" < "3"` is true. -/
theorem lt_matches_int_order (a b : BigInt) (ha : WellFormed a) (hb : WellFormed b) :
    (lt a b = true ↔ toInt a < toInt b) ∧
    (a.negative = true → b.negative = false → lt a b = true ∧ lt b a = false) ∧
    (a.negative = true → b.negative = true →
      (lt a b = true ↔ val b.value < val a.value)) ∧
    lt (parse "-5".toList) (parse "3".toList) = true := by
  refine ⟨lt_iff a b ha hb, ?_, ?_, by decide⟩
  · intro h1 h2
    simp [lt, h1, h2]
  · intro h1 h2
    have := less_iff b.value a.value hb.1 ha.1
    simp [lt, h1, h2, this]

theorem lt_matches_int_order_witness :
    WellFormed (BigInt.mk [7, 5, 1] true) ∧ WellFormed (BigInt.mk [9, 2] true) ∧
    (lt (BigInt.mk [7, 5, 1] true) (BigInt.mk [9, 2] true) = true ↔
      toInt (BigInt.mk [7, 5, 1] true) < toInt (BigInt.mk [9, 2] true)) :=
  ⟨by decide, by decide, (lt_matches_int_order _ _ (by decide) (by decide)).1⟩

/-- C7: formatting a well-formed value `x` gives a text, and parsing that text gives back
the magnitude limbs and the sign flag of `x`, a value equal to `x` under `operator==`. -/
theorem decimal_round_trip (x : BigInt) (hx : WellFormed x) :
    ∃ s, toString x = some s ∧ (parse s).value = x.value ∧
      (parse s).negative = x.negative ∧ eq (parse s) x = true := by
  obtain ⟨s, h1, h2⟩ := parse_toString x hx
  exact ⟨s, h1, by rw [h2], by rw [h2], by rw [h2]; exact eq_refl_true x⟩

theorem decimal_round_trip_witness :
    WellFormed (BigInt.mk [7, 5, 1] true) ∧
    ∃ s, toString (BigInt.mk [7, 5, 1] true) = some s ∧
      (parse s).value = [7, 5, 1] ∧ (parse s).negative = true ∧
      eq (parse s) (BigInt.mk [7, 5, 1] true) = true :=
  ⟨by decide, decimal_round_trip _ (by decide)⟩

/-- C8: for a run `ds` of decimal digits, the texts `ds` and `'-' :: ds` parse to
well-formed values denoting the number written and its negation; `""`, `"-"`, `"0"`, `"-0"`
and `"000"` give the canonical zero; leading zero digits do not change the result. -/
theorem parse_valid_text (ds : List Char) (hds : ∀ c ∈ ds, IsDigit c) :
    (WellFormed (parse ds) ∧ toInt (parse ds) = (decimalValue ds : Int)) ∧
    (WellFormed (parse ('-' :: ds)) ∧ toInt (parse ('-' :: ds)) = -(decimalValue ds : Int)) ∧
    (parse "".toList = BigInt.mk [] false ∧ parse "-".toList = BigInt.mk [] false ∧
      parse "0".toList = BigInt.mk [] false ∧ parse "-0".toList = BigInt.mk [] false ∧
      parse "000".toList = BigInt.mk [] false) ∧
    (∀ n : Nat, parse (List.replicate n '0' ++ ds) = parse ds ∧
      parse ('-' :: (List.replicate n '0' ++ ds)) = parse ('-' :: ds)) := by
  obtain ⟨h1, h2, h3, h4⟩ := parse_spec ds hds
  refine ⟨⟨h1, h2⟩, ⟨h3, h4⟩, by decide, ?_⟩
  intro n
  obtain ⟨z1, z2, z3, z4⟩ := parse_spec _ (isDigit_zeros_append n ds hds)
  rw [decimalValue_zeros_append] at z2 z4
  exact ⟨wellFormed_ext _ _ z1 h1 (by rw [z2, h2]), wellFormed_ext _ _ z3 h3 (by rw [z4, h4])⟩

theorem parse_valid_text_witness :
    (∀ c ∈ "0042".toList, IsDigit c) ∧
    toInt (parse "0042".toList) = (decimalValue "0042".toList : Int) ∧
    toInt (parse ('-' :: "0042".toList)) = -(decimalValue "0042".toList : Int) :=
  ⟨by decide, (parse_valid_text "0042".toList (by decide)).1.2,
    (parse_valid_text "0042".toList (by decide)).2.1.2⟩

/-- C9, at a failing input: the operands parse from the valid texts `"-4294967296"` and
`"0"`; `operator*=` leaves the magnitude `[0]` (one zero limb, not the empty sequence)
with the sign flag set, and the product formats as `"-0"`. -/
theorem op_mul_formats_minus_zero :
    parse "-4294967296".toList = BigInt.mk [0, 1] true ∧
    parse "0".toList = BigInt.mk [] false ∧
    op_mul (parse "-4294967296".toList) (parse "0".toList) = BigInt.mk [0] true ∧
    toString (op_mul (parse "-4294967296".toList) (parse "0".toList)) = some "-0".toList := by
  decide

/-- C10, at a failing input: `-5 + 5` with both operands well-formed.  On the tie
`operator+=` keeps the receiver's sign flag and `sub` empties the magnitude: the result
is a negative zero, which `operator==` does not take for `BigInt(0)`.  Likewise `-1 * 0`,
`-1 / 2` and `-4 % 2` come out with an empty magnitude and the sign flag set. -/
theorem op_add_tie_negative_zero :
    WellFormed (BigInt.mk [5] true) ∧ WellFormed (BigInt.mk [5] false) ∧
    op_add (BigInt.mk [5] true) (BigInt.mk [5] false) = BigInt.mk [] true ∧
    eq (op_add (BigInt.mk [5] true) (BigInt.mk [5] false)) (parse "0".toList) = false ∧
    op_mul (BigInt.mk [1] true) (BigInt.mk [] false) = BigInt.mk [] true ∧
    op_div (BigInt.mk [1] true) (BigInt.mk [2] false) = some (BigInt.mk [] true) ∧
    op_mod (BigInt.mk [4] true) (BigInt.mk [2] false) = some (BigInt.mk [] true) := by
  decide

/-! ## Further facts on the magnitude helpers -/

theorem less_nil_right (a : List Nat) : less a [] = false := by
  cases a with
  | nil => rfl
  | cons x xs => simp [less]

theorem add_nil_right (a : List Nat) (ha : Canonical a) : add a [] = a :=
  canonical_ext _ _ (canonical_add a [] ha canonical_nil) ha
    (by rw [val_add a [] ha.1 limbs_nil]; simp [val])

theorem sub_nil_right (a : List Nat) (ha : Canonical a) : sub a [] = a := by
  obtain ⟨h1, h2⟩ := sub_spec_of_le a [] ha.1 limbs_nil (by simp [val])
  exact canonical_ext _ _ h1 ha (by rw [h2]; simp [val])

theorem limbs_invertLoop (a : List Nat) : ∀ (o : Bool), Limbs (invertLoop a o) := by
  induction a with
  | nil => intro o; exact limbs_nil
  | cons x xs ih =>
    intro o
    simp only [invertLoop]
    exact limbs_cons.2 ⟨Nat.mod_lt _ (by norm_num), ih _⟩

/-- Whatever the operands, `sub` ends with `delete_leading_zeros` on 32-bit limbs. -/
theorem canonical_sub (a b : List Nat) (ha : Limbs a) (hb : Limbs b) : Canonical (sub a b) := by
  obtain ⟨a2, d, hs, _, hl2, _, _⟩ := sub_loops_spec a b ha hb
  rw [hs]
  apply canonical_delete_leading_zeros
  by_cases hd : d = -1
  · simp only [hd, if_true]; exact limbs_invertLoop a2 true
  · simp only [hd, if_false]; exact hl2

/-- Stripping is insensitive to an earlier stripping of the high part. -/
theorem delete_leading_zeros_append_strip (l m : List Nat) (hl : Limbs l) (hm : Limbs m) :
    delete_leading_zeros (l ++ delete_leading_zeros m) = delete_leading_zeros (l ++ m) := by
  have hm2 := (delete_leading_zeros_spec m).2.1 hm
  apply canonical_ext
  · exact canonical_delete_leading_zeros _ (limbs_append.2 ⟨hl, hm2⟩)
  · exact canonical_delete_leading_zeros _ (limbs_append.2 ⟨hl, hm⟩)
  · rw [val_delete_leading_zeros, val_delete_leading_zeros, val_append, val_append,
      val_delete_leading_zeros]

/-! ## The comparison operators on well-formed values -/

theorem lt_asymm_of_wellFormed (a b : BigInt) (ha : WellFormed a) (hb : WellFormed b)
    (h : lt a b = true) : lt b a = false := by
  have h1 := (lt_iff a b ha hb).1 h
  cases hba : lt b a with
  | false => rfl
  | true =>
    have h2 := (lt_iff b a hb ha).1 hba
    omega

theorem eq_iff_of_wellFormed (a b : BigInt) (ha : WellFormed a) (hb : WellFormed b) :
    eq a b = true ↔ a = b := by
  constructor
  · intro h
    simp only [eq, Bool.and_eq_true, Bool.not_eq_true'] at h
    apply wellFormed_ext a b ha hb
    have h1 : ¬ (toInt a < toInt b) := fun hlt => by
      have := (lt_iff a b ha hb).2 hlt
      rw [h.1] at this
      exact Bool.noConfusion this
    have h2 : ¬ (toInt b < toInt a) := fun hlt => by
      have := (lt_iff b a hb ha).2 hlt
      rw [h.2] at this
      exact Bool.noConfusion this
    omega
  · intro h
    subst h
    exact eq_refl_true a

/-! ## Subtraction against addition of the negation -/

theorem neg_of_wellFormed (b : BigInt) (hb : WellFormed b) :
    neg b = ⟨b.value, if b.value.length = 0 then false else !b.negative⟩ := by
  unfold neg ofLimbs
  simp only [delete_leading_zeros_of_canonical b.value hb.1]

theorem op_sub_eq_op_add_neg (a b : BigInt) (ha : WellFormed a) (hb : WellFormed b) :
    op_sub a b = op_add a (neg b) := by
  rw [neg_of_wellFormed b hb]
  by_cases h0 : b.value = []
  · have hbn := hb.2 h0
    have hadd := add_nil_right a.value ha.1
    have hsub := sub_nil_right a.value ha.1
    have hless := less_nil_right a.value
    obtain ⟨av, an⟩ := a
    obtain ⟨bv, bn⟩ := b
    simp only at h0 hbn hadd hsub hless
    subst h0; subst hbn
    cases an <;> simp [op_sub, op_add, hadd, hsub, hless]
  · have hl : ¬ (b.value.length = 0) := fun h => h0 (List.length_eq_zero.1 h)
    obtain ⟨av, an⟩ := a
    obtain ⟨bv, bn⟩ := b
    simp only at hl
    cases an <;> cases bn <;> simp [op_sub, op_add, hl]

/-! ## Division by the empty magnitude -/

/-- With an empty divisor `less(a, b)` is false, the early return is not taken, and `div`
reaches the window construction, where the source has no defined behaviour. -/
theorem div_nil_right (a : List Nat) : div a [] = none := by
  simp [div, less_nil_right]

/-! ## Parsing arbitrary ASCII text -/

theorem digitOfChar_lt (c : Char) : digitOfChar c < 2 ^ 32 := by
  unfold digitOfChar
  have h0 : 0 ≤ ((c.toNat : Int) - 48) % 2 ^ 32 := Int.emod_nonneg _ (by norm_num)
  have h1 : ((c.toNat : Int) - 48) % 2 ^ 32 < 2 ^ 32 := Int.emod_lt_of_pos _ (by norm_num)
  omega

theorem digitOfChar_ne_zero (c : Char) (hc : c.toNat < 128) (h0 : c ≠ '0') :
    digitOfChar c ≠ 0 := by
  have hne := (char_ne_zero_iff c).1 h0
  unfold digitOfChar
  omega

/-- One round of the parsing loop on any ASCII character: the character enters as the
limb `(c - '0') mod 2 ^ 32`. -/
theorem parseStep_ascii (v : List Nat) (c : Char) (hv : Canonical v) (hc : c.toNat < 128) :
    Canonical (parseStep v c) ∧ val (parseStep v c) = 10 * val v + digitOfChar c := by
  have hm := canonical_mult_limb v 10 hv (by norm_num) (by norm_num)
  have hmv := val_mult_limb v 10 hv.1 (by norm_num)
  by_cases h0 : c = '0'
  · subst h0
    have : parseStep v '0' = mult_limb v 10 := by simp [parseStep]
    rw [this, hmv]
    exact ⟨hm, by rw [Nat.mul_comm]; rfl⟩
  · have hs : parseStep v c = add (mult_limb v 10) [digitOfChar c] := by
      simp only [parseStep, ne_eq, h0, not_false_eq_true, if_true]
    have hcd : Canonical [digitOfChar c] := by
      refine ⟨by intro x hx; simp at hx; subst hx; exact digitOfChar_lt c, ?_⟩
      simp only [List.getLast?_singleton, ne_eq, Option.some.injEq]
      exact digitOfChar_ne_zero c hc h0
    rw [hs]
    refine ⟨canonical_add _ _ hm hcd, ?_⟩
    rw [val_add _ _ hm.1 hcd.1, hmv]
    simp only [val]; omega

theorem parse_fold_ascii (cs : List Char) :
    ∀ (v : List Nat), (∀ c ∈ cs, c.toNat < 128) → Canonical v →
      Canonical (cs.foldl parseStep v) ∧
      val (cs.foldl parseStep v) = cs.foldl (fun n c => 10 * n + digitOfChar c) (val v) := by
  induction cs with
  | nil => intro v _ hv; exact ⟨hv, rfl⟩
  | cons c cs ih =>
    intro v hcs hv
    obtain ⟨h1, h2⟩ := parseStep_ascii v c hv (hcs c (List.mem_cons_self _ _))
    have := ih (parseStep v c) (fun x hx => hcs x (List.mem_cons_of_mem _ hx)) h1
    rw [List.foldl_cons, List.foldl_cons, ← h2]
    exact this

/-- The constructor from text on any ASCII string: a well-formed value whose magnitude
folds every character after the optional leading minus sign as a digit. -/
theorem parse_ascii (s : List Char) (hs : ∀ c ∈ s, c.toNat < 128) :
    WellFormed (parse s) ∧
    val (parse s).value =
      (s.drop (if s.head? = some '-' then 1 else 0)).foldl
        (fun n c => 10 * n + digitOfChar c) 0 := by
  by_cases h0 : s = []
  · subst h0; exact ⟨by decide, rfl⟩
  · have hd : ∀ c ∈ s.drop (if s.head? = some '-' then 1 else 0), c.toNat < 128 :=
      fun c hc => hs c (List.mem_of_mem_drop hc)
    obtain ⟨h1, h2⟩ := parse_fold_ascii _ [] hd canonical_nil
    have hp : parse s = ⟨(s.drop (if s.head? = some '-' then 1 else 0)).foldl parseStep [],
        if ((s.drop (if s.head? = some '-' then 1 else 0)).foldl parseStep []).length = 0
        then false else decide (s.head? = some '-')⟩ := by
      simp only [parse, h0, if_false, decide_eq_true_eq]
    rw [hp]
    refine ⟨⟨h1, ?_⟩, h2⟩
    intro hnil
    have hnil' : (s.drop (if s.head? = some '-' then 1 else 0)).foldl parseStep [] = [] := hnil
    simp [hnil']

/-! ## The claims, continued -/

theorem mult_limb_zero (a : List Nat) : mult_limb a 0 = List.replicate a.length 0 := by
  have h : (multLoop a 0 0) = (List.replicate a.length 0, 0) := by
    induction a with
    | nil => rfl
    | cons x xs ih => simp [multLoop, ih, List.replicate_succ]
  simp [mult_limb, h]

/-- C11, as stated, fails at `5 / 0` and `5 % 0`: neither call ends in a `DivisionByZero`
error.  No check precedes the division algorithm; `less(a, b)` is false, `div` goes on to
construct its window from the iterator range `(a.end() + 1, a.end())`, and the call has
no defined outcome. -/
theorem div_by_zero_no_error_kind :
    less (parse "5".toList).value (parse "0".toList).value = false ∧
    op_div_outcome (parse "5".toList) (parse "0".toList) = none ∧
    op_mod_outcome (parse "5".toList) (parse "0".toList) = none ∧
    ¬ (op_div_outcome (parse "5".toList) (parse "0".toList) =
        some (Except.error Error.DivisionByZero)) ∧
    ¬ (op_mod_outcome (parse "5".toList) (parse "0".toList) =
        some (Except.error Error.DivisionByZero)) := by
  have h1 : op_div (parse "5".toList) (parse "0".toList) = none := by decide
  have h2 : op_mod (parse "5".toList) (parse "0".toList) = none := by decide
  have o1 : op_div_outcome (parse "5".toList) (parse "0".toList) = none := by
    unfold op_div_outcome; rw [h1]; rfl
  have o2 : op_mod_outcome (parse "5".toList) (parse "0".toList) = none := by
    unfold op_mod_outcome; rw [h2]; rfl
  refine ⟨by decide, o1, o2, ?_, ?_⟩
  · rw [o1]; exact fun h => Option.noConfusion h
  · rw [o2]; exact fun h => Option.noConfusion h

/-- C11, amended: a zero divisor is not detected.  For every `a` and every `b` with empty
magnitude, `less(a, b)` is false, so `div` takes no early return and reaches its window
construction on an invalid iterator range: `a / b` and `a % b` have no defined outcome,
neither a value nor an error of the program's own.  No call of `operator/` or
`operator%` ends in a `DivisionByZero` error, and with well-formed operands and a
non-zero divisor both return a value. -/
theorem div_by_zero_undetected (a b : BigInt) (hb : b.value = []) :
    less a.value b.value = false ∧ div a.value b.value = none ∧
    op_div_outcome a b = none ∧ op_mod_outcome a b = none ∧
    (∀ c d : BigInt,
      op_div_outcome c d ≠ some (Except.error Error.DivisionByZero) ∧
      op_mod_outcome c d ≠ some (Except.error Error.DivisionByZero)) ∧
    (∀ c d : BigInt, WellFormed c → WellFormed d → d.value ≠ [] →
      ∃ q r : BigInt, op_div_outcome c d = some (Except.ok q) ∧
        op_mod_outcome c d = some (Except.ok r)) := by
  have hd : div a.value b.value = none := by rw [hb]; exact div_nil_right a.value
  refine ⟨by rw [hb]; exact less_nil_right a.value, hd, by simp [op_div_outcome, op_div, hd],
    by simp [op_mod_outcome, op_mod, hd], ?_, ?_⟩
  · intro c d
    constructor
    · intro h
      cases hq : op_div c d with
      | none => simp [op_div_outcome, hq] at h
      | some q => simp [op_div_outcome, hq] at h
    · intro h
      cases hr : op_mod c d with
      | none => simp [op_mod_outcome, hr] at h
      | some r => simp [op_mod_outcome, hr] at h
  · intro c d hc hdw hne
    obtain ⟨q, r, hq, hr, _⟩ := op_div_mod_spec c d hc hdw hne
    exact ⟨⟨q, c.negative != d.negative⟩, ⟨r, c.negative⟩,
      by unfold op_div_outcome; rw [hq]; rfl, by unfold op_mod_outcome; rw [hr]; rfl⟩

theorem div_by_zero_undetected_witness :
    (BigInt.mk [] false).value = [] ∧
    op_div_outcome (BigInt.mk [7, 9] true) (BigInt.mk [] false) = none ∧
    op_mod_outcome (BigInt.mk [7, 9] true) (BigInt.mk [] false) = none :=
  ⟨rfl, (div_by_zero_undetected (BigInt.mk [7, 9] true) (BigInt.mk [] false) rfl).2.2.1,
    (div_by_zero_undetected (BigInt.mk [7, 9] true) (BigInt.mk [] false) rfl).2.2.2.1⟩

/-- C12, at failing inputs.  With `a = 0` and `b = -(2^64 + 1)` the receiver of `a + b` has
the smaller magnitude, `sub` ends in a borrow and `invert` returns `[1, 0, 2]`, while
`b + a` keeps `[1, 0, 1]`.  With `a = -5` and `b = 5` the tie leaves a negative zero in
`a + b` and a non-negative zero in `b + a`.  In both cases `(a + b) == (b + a)` is
false. -/
theorem op_add_not_commutative :
    WellFormed (BigInt.mk [] false) ∧ WellFormed (BigInt.mk [1, 0, 1] true) ∧
    op_add (BigInt.mk [] false) (BigInt.mk [1, 0, 1] true) = BigInt.mk [1, 0, 2] true ∧
    op_add (BigInt.mk [1, 0, 1] true) (BigInt.mk [] false) = BigInt.mk [1, 0, 1] true ∧
    eq (op_add (BigInt.mk [] false) (BigInt.mk [1, 0, 1] true))
      (op_add (BigInt.mk [1, 0, 1] true) (BigInt.mk [] false)) = false ∧
    WellFormed (BigInt.mk [5] true) ∧ WellFormed (BigInt.mk [5] false) ∧
    eq (op_add (BigInt.mk [5] true) (BigInt.mk [5] false))
      (op_add (BigInt.mk [5] false) (BigInt.mk [5] true)) = false := by
  decide

/-- C13, at a failing input: `a = 2^32` (limbs `[0, 1]`) and `b = 0`.  `a * b` adds the
all-zero row of index 1 into the accumulator and returns the limbs `[0]`, `b * a` runs
no round and returns the empty sequence, and `operator==`, which compares sizes first,
answers false. -/
theorem op_mul_not_commutative :
    WellFormed (BigInt.mk [0, 1] false) ∧ WellFormed (BigInt.mk [] false) ∧
    parse "4294967296".toList = BigInt.mk [0, 1] false ∧
    op_mul (BigInt.mk [0, 1] false) (BigInt.mk [] false) = BigInt.mk [0] false ∧
    op_mul (BigInt.mk [] false) (BigInt.mk [0, 1] false) = BigInt.mk [] false ∧
    eq (op_mul (BigInt.mk [0, 1] false) (BigInt.mk [] false))
      (op_mul (BigInt.mk [] false) (BigInt.mk [0, 1] false)) = false := by
  decide

/-- C14, at a failing input: `a = -5`.  `a - a` has equal signs and equal magnitudes, so
the sign flag stays set while `sub` empties the magnitude; the negative zero is below
`BigInt(0)` for `operator<`, and `(a - a) == BigInt(0)` is false. -/
theorem op_sub_self_not_zero :
    WellFormed (BigInt.mk [5] true) ∧ parse "-5".toList = BigInt.mk [5] true ∧
    op_sub (BigInt.mk [5] true) (BigInt.mk [5] true) = BigInt.mk [] true ∧
    lt (op_sub (BigInt.mk [5] true) (BigInt.mk [5] true)) (parse "0".toList) = true ∧
    eq (op_sub (BigInt.mk [5] true) (BigInt.mk [5] true)) (parse "0".toList) = false := by
  decide

/-- C15, as stated, fails at `"12a"`, `"1-2"` and `"+5"`: the constructor returns the
values 169, `10 * (2^32 + 7) + 2` and `10 * (2^32 - 5) + 5`, never a `ParseError`. -/
theorem parse_malformed_returns_value :
    parse_outcome "12a".toList = Except.ok (BigInt.mk [169] false) ∧
    parse_outcome "1-2".toList = Except.ok (BigInt.mk [72, 10] false) ∧
    parse_outcome "+5".toList = Except.ok (BigInt.mk [4294967251, 9] false) ∧
    ¬ (parse_outcome "12a".toList = Except.error Error.ParseError) ∧
    ¬ (parse_outcome "1-2".toList = Except.error Error.ParseError) ∧
    ¬ (parse_outcome "+5".toList = Except.error Error.ParseError) := by
  have h1 : parse "12a".toList = BigInt.mk [169] false := by decide
  have h2 : parse "1-2".toList = BigInt.mk [72, 10] false := by decide
  have h3 : parse "+5".toList = BigInt.mk [4294967251, 9] false := by decide
  refine ⟨congrArg Except.ok h1, congrArg Except.ok h2, congrArg Except.ok h3, ?_, ?_, ?_⟩
  · intro h; exact Except.noConfusion h
  · intro h; exact Except.noConfusion h
  · intro h; exact Except.noConfusion h

/-- C15, amended: text is not validated.  For every ASCII string, well-formed text or not,
the constructor returns a value and no `ParseError`; the value is well-formed, and after
the optional leading `'-'` every character `c`, digit or not, enters the magnitude as the
limb `(c - '0') mod 2^32` in `value = 10 * value + limb`. -/
theorem parse_unvalidated (s : List Char) (hs : ∀ c ∈ s, c.toNat < 128) :
    parse_outcome s = Except.ok (parse s) ∧
    ¬ (parse_outcome s = Except.error Error.ParseError) ∧
    WellFormed (parse s) ∧
    val (parse s).value =
      (s.drop (if s.head? = some '-' then 1 else 0)).foldl
        (fun n c => 10 * n + digitOfChar c) 0 := by
  obtain ⟨h1, h2⟩ := parse_ascii s hs
  exact ⟨rfl, fun h => Except.noConfusion h, h1, h2⟩

theorem parse_unvalidated_witness :
    (∀ c ∈ "-7x".toList, c.toNat < 128) ∧
    parse_outcome "-7x".toList = Except.ok (parse "-7x".toList) ∧
    WellFormed (parse "-7x".toList) :=
  ⟨by decide, (parse_unvalidated "-7x".toList (by decide)).1,
    (parse_unvalidated "-7x".toList (by decide)).2.2.1⟩

/-- C16: for canonical `a` and canonical non-empty `b`, `div(a, b)` returns canonical
`(q, r)` with `val a = val q * val b + val r` and `val r < val b`; when `a < b` it
returns `([], a)`; on a canonical window `p` with `val p < 2^32 * val b` the binary
search returns the largest `k < 2^32` with `k * val b ≤ val p`; and the windows do
satisfy that bound: the first remainder (the top `b.size() - 1` limbs of `a`) is below
`val b`, and from a remainder below `val b` the next window is below `2^32 * val b` and
the next remainder is again canonical and below `val b`. -/
theorem div_correct (a b : List Nat) (ha : Canonical a) (hb : Canonical b) (hne : b ≠ []) :
    (∃ q r, div a b = some (q, r) ∧ Canonical q ∧ Canonical r ∧
      val a = val q * val b + val r ∧ val r < val b) ∧
    (val a < val b → div a b = some ([], a)) ∧
    (∀ p : List Nat, Canonical p → val p < 2 ^ 32 * val b →
      (searchLoop p b 32 0 (2 ^ 32)).1 < 2 ^ 32 ∧
      (searchLoop p b 32 0 (2 ^ 32)).1 * val b ≤ val p ∧
      (∀ j : Nat, j * val b ≤ val p → j ≤ (searchLoop p b 32 0 (2 ^ 32)).1) ∧
      ¬ ((searchLoop p b 32 0 (2 ^ 32)).1 < (searchLoop p b 32 0 (2 ^ 32)).2 - 1)) ∧
    (val b ≤ val a → val (a.drop (a.length + 1 - b.length)) < val b) ∧
    (∀ (r p : List Nat) (ai : Nat), Limbs p → val p < val b → ai < 2 ^ 32 →
      val (delete_leading_zeros (ai :: p)) < 2 ^ 32 * val b ∧
      Canonical (divStep b (r, p) ai).2 ∧ val (divStep b (r, p) ai).2 < val b ∧
      (divStep b (r, p) ai).1 =
        r ++ [(searchLoop (delete_leading_zeros (ai :: p)) b 32 0 (2 ^ 32)).1]) := by
  refine ⟨div_spec a b ha hb hne, ?_, ?_, ?_, ?_⟩
  · intro hlt
    have hl := (less_iff a b ha hb).2 hlt
    simp [div, hl]
  · intro p hp hpb
    obtain ⟨s1, s2, s3, s4⟩ := searchLoop_spec p b hp hb 32 0 (2 ^ 32) (by norm_num)
      (le_refl _) (by norm_num) (by simp) hpb
    refine ⟨s3, s1, ?_, s4⟩
    intro j hj
    by_contra hcon
    have hjk : (searchLoop p b 32 0 (2 ^ 32)).1 + 1 ≤ j := by omega
    have := Nat.mul_le_mul_right (val b) hjk
    omega
  · intro hge
    have hlen : b.length ≤ a.length := by
      by_contra hcon
      have := val_lt_of_length_lt a b ha.1 hb (by omega)
      omega
    have hbl : 1 ≤ b.length := by
      cases b with
      | nil => exact absurd rfl hne
      | cons y ys => simp
    have hL : Limbs (a.drop (a.length + 1 - b.length)) :=
      fun x hx => ha.1 x (List.mem_of_mem_drop hx)
    have h1 := val_lt _ hL
    have h2 := canonical_val_ge b hb hne
    have h3 : (a.drop (a.length + 1 - b.length)).length = b.length - 1 := by
      rw [List.length_drop]; omega
    rw [h3] at h1
    omega
  · intro r p ai hp hpb hai
    obtain ⟨k, p2, e, _, hc2, _, hlt2⟩ := divStep_spec b hb r p ai hp hpb hai
    refine ⟨?_, by rw [e]; exact hc2, by rw [e]; exact hlt2, rfl⟩
    rw [val_delete_leading_zeros]
    have : 2 ^ 32 * (val p + 1) ≤ 2 ^ 32 * val b := Nat.mul_le_mul_left _ hpb
    rw [Nat.mul_add] at this
    simp only [val]
    omega

theorem div_correct_witness :
    Canonical [7, 5, 1] ∧ Canonical [9, 2] ∧ [9, 2] ≠ ([] : List Nat) ∧
    ∃ q r, div [7, 5, 1] [9, 2] = some (q, r) ∧ Canonical q ∧ Canonical r ∧
      val [7, 5, 1] = val q * val [9, 2] + val r ∧ val r < val [9, 2] :=
  ⟨by decide, by decide, by decide,
    (div_correct [7, 5, 1] [9, 2] (by decide) (by decide) (by decide)).1⟩

/-- C17, at a failing input: `a = []` and `b = [1, 0, 1]`, both canonical.  `sub(a, b)`
ends in a borrow; `invert` meets the all-ones limb at index 1 with no carry pending,
still raises `overflow`, and adds one to the top limb: the result `[1, 0, 2]` is neither
`|val a - val b|` nor the limbs `[1, 0, 1]` of `sub(b, a)`. -/
theorem sub_wrong_after_borrow :
    Canonical ([] : List Nat) ∧ Canonical [1, 0, 1] ∧
    sub [] [1, 0, 1] = [1, 0, 2] ∧ sub [1, 0, 1] [] = [1, 0, 1] ∧
    invertLoop [4294967295, 4294967295, 4294967294] true = [1, 0, 2] ∧
    val (sub [] [1, 0, 1]) ≠ val [1, 0, 1] - val ([] : List Nat) ∧
    sub [] [1, 0, 1] ≠ sub [1, 0, 1] [] := by
  decide

/-- C18, as stated, fails at the scalar `k = 0`: `mult([1], 0)` is the single limb `0`,
which is not canonical. -/
theorem mult_limb_zero_not_canonical :
    Canonical [1] ∧ mult_limb [1] 0 = [0] ∧ ¬ Canonical (mult_limb [1] 0) := by
  decide

/-- C18, amended: for canonical `a` and `b` and a 32-bit scalar `k`, `add(a, b)`,
`sub(a, b)` and, for non-empty `b`, both components of `div(a, b)` are canonical; the
scalar `mult(a, k)` is canonical for `k ≠ 0` and returns `a.size()` zero limbs for
`k = 0`; the full `mult(a, b)` is canonical for non-empty `b`. -/
theorem magnitude_ops_canonical (a b : List Nat) (k : Nat) (ha : Canonical a)
    (hb : Canonical b) (hk : k < 2 ^ 32) :
    Canonical (add a b) ∧ Canonical (sub a b) ∧
    (k ≠ 0 → Canonical (mult_limb a k)) ∧
    mult_limb a 0 = List.replicate a.length 0 ∧
    (b ≠ [] → Canonical (mult a b)) ∧
    (b ≠ [] → ∃ q r, div a b = some (q, r) ∧ Canonical q ∧ Canonical r) := by
  refine ⟨canonical_add a b ha hb, canonical_sub a b ha.1 hb.1,
    fun hk0 => canonical_mult_limb a k ha hk hk0, mult_limb_zero a,
    fun hne => canonical_mult a b ha hb hne, fun hne => ?_⟩
  obtain ⟨q, r, hd, h1, h2, _, _⟩ := div_spec a b ha hb hne
  exact ⟨q, r, hd, h1, h2⟩

theorem magnitude_ops_canonical_witness :
    Canonical [7, 5, 1] ∧ Canonical [9, 2] ∧ 3 < 2 ^ 32 ∧
    Canonical (add [7, 5, 1] [9, 2]) ∧ Canonical (sub [7, 5, 1] [9, 2]) :=
  ⟨by decide, by decide, by decide,
    (magnitude_ops_canonical [7, 5, 1] [9, 2] 3 (by decide) (by decide) (by decide)).1,
    (magnitude_ops_canonical [7, 5, 1] [9, 2] 3 (by decide) (by decide) (by decide)).2.1⟩

/-- C19: for well-formed `a` and `b`, `a - b` and `a + (-b)` are the same value: the same
magnitude limbs and the same sign flag. -/
theorem op_sub_mirrors_op_add (a b : BigInt) (ha : WellFormed a) (hb : WellFormed b) :
    op_sub a b = op_add a (neg b) ∧
    (op_sub a b).value = (op_add a (neg b)).value ∧
    (op_sub a b).negative = (op_add a (neg b)).negative := by
  have h := op_sub_eq_op_add_neg a b ha hb
  exact ⟨h, by rw [h], by rw [h]⟩

theorem op_sub_mirrors_op_add_witness :
    WellFormed (BigInt.mk [7, 5, 1] true) ∧ WellFormed (BigInt.mk [9, 2] true) ∧
    op_sub (BigInt.mk [7, 5, 1] true) (BigInt.mk [9, 2] true) =
      op_add (BigInt.mk [7, 5, 1] true) (neg (BigInt.mk [9, 2] true)) :=
  ⟨by decide, by decide, (op_sub_mirrors_op_add _ _ (by decide) (by decide)).1⟩

/-- C20: for well-formed `a` and `b`, `operator==` is true exactly when the magnitude
limbs and the sign flags coincide; exactly one of `a < b`, `a == b`, `b < a` holds; and
`!=`, `<=`, `>=` are the complements of `==`, `>` and `<`. -/
theorem eq_is_structural (a b : BigInt) (ha : WellFormed a) (hb : WellFormed b) :
    (eq a b = true ↔ (a.value = b.value ∧ a.negative = b.negative)) ∧
    ((lt a b = true ∧ eq a b = false ∧ lt b a = false) ∨
      (lt a b = false ∧ eq a b = true ∧ lt b a = false) ∨
      (lt a b = false ∧ eq a b = false ∧ lt b a = true)) ∧
    ne a b = !(eq a b) ∧ le a b = !(gt a b) ∧ ge a b = !(lt a b) := by
  have hasym1 := lt_asymm_of_wellFormed a b ha hb
  have hasym2 := lt_asymm_of_wellFormed b a hb ha
  refine ⟨?_, ?_, ?_, ?_, ?_⟩
  · rw [eq_iff_of_wellFormed a b ha hb]
    constructor
    · intro h; rw [h]; exact ⟨rfl, rfl⟩
    · intro h
      obtain ⟨av, an⟩ := a
      obtain ⟨bv, bn⟩ := b
      simp only at h
      rw [h.1, h.2]
  · unfold eq
    cases h1 : lt a b <;> cases h2 : lt b a <;> simp
    exact absurd (hasym1 h1) (by rw [h2]; decide)
  · unfold ne eq
    cases lt a b <;> cases lt b a <;> rfl
  · unfold le gt
    cases h1 : lt a b <;> cases h2 : lt b a <;> simp
    exact absurd (hasym1 h1) (by rw [h2]; decide)
  · unfold ge
    cases h1 : lt a b <;> cases h2 : lt b a <;> simp
    exact absurd (hasym1 h1) (by rw [h2]; decide)

theorem eq_is_structural_witness :
    WellFormed (BigInt.mk [7, 5, 1] true) ∧ WellFormed (BigInt.mk [9, 2] false) ∧
    (eq (BigInt.mk [7, 5, 1] true) (BigInt.mk [9, 2] false) = true ↔
      ((BigInt.mk [7, 5, 1] true).value = (BigInt.mk [9, 2] false).value ∧
        (BigInt.mk [7, 5, 1] true).negative = (BigInt.mk [9, 2] false).negative)) :=
  ⟨by decide, by decide, (eq_is_structural _ _ (by decide) (by decide)).1⟩

end BigInt
